import Mathlib

/-!
proteus: the Type/Schema Transformer (`protobuf/transform.go`, `protobuf/plugin.go`)

Shallow embedding of the transformer that turns scanned Go declarations into
protobuf schema entities, and of the plugin chain it drives.

Conventions of the embedding

* Go strings are `String`; a `range` loop over a string visits its runes, here
  the `Char`s of `String.data`.
* A Go interface or pointer value that may be `nil` is modelled by a `nil`
  constructor (`protobuf.Typ.nil`) or by `Option`.
* The transformer mutates `*Package`, `*Message`, `*Field` in place; here the
  state is passed explicitly and every function returns the updated values.
* Plugin callbacks receive live pointers. They are pure functions returning the
  updated package and entity; the chain additionally logs each invocation in an
  event list so that ordering properties can be stated.
* The tables of the Go `unicode` package and the normalisation forms of
  `golang.org/x/text` are parameters (`UnicodeTables`), as is the built-in
  `defaultMappings` table, which is declared in a file that is not part of the
  sources at hand.
* `report.Warn` only prints a diagnostic line and is not modelled.
-/

namespace Proteus

/-- The functions of Go's `unicode` package and of `golang.org/x/text/unicode/norm`
that `transform.go` calls. -/
structure UnicodeTables where
  /-- Go `unicode.IsLetter` -/
  IsLetter : Char → Bool
  /-- Go `unicode.IsNumber` -/
  IsNumber : Char → Bool
  /-- Go `unicode.IsUpper` -/
  IsUpper : Char → Bool
  /-- Go `unicode.IsLower`; `transform.go` does not call it, it serves to state what the
  case conversions return -/
  IsLower : Char → Bool
  /-- Go `unicode.ToLower` -/
  ToLower : Char → Char
  /-- Go `unicode.ToUpper` -/
  ToUpper : Char → Char
  /-- membership in the range table `unicode.Mn` (nonspacing marks) -/
  IsMn : Char → Bool
  /-- Go `norm.NFD` applied to a whole string -/
  NFD : List Char → List Char
  /-- Go `norm.NFC` applied to a whole string -/
  NFC : List Char → List Char

/-- Go `Options` of the schema entities: a string-keyed option map, as an association list. -/
abbrev Options := List (String × String)

namespace scanner

/-- Go `scanner.Type`: the scanned type of a field. Each variant embeds the
`Repeated` flag of `BaseType`. -/
inductive Typ where
  | Basic (Repeated : Bool) (Name : String)
  | Named (Repeated : Bool) (Path Name : String)
  | Map (Repeated : Bool) (Key Value : Typ)
  deriving DecidableEq, Repr

/-- Go `Type.IsRepeated` -/
def Typ.IsRepeated : Typ → Bool
  | .Basic r _ => r
  | .Named r _ _ => r
  | .Map r _ _ => r

/-- Modelled from the spec: `scanner.Named.String`, the identity string of a named
type used verbatim as mapping-table key (the scanner package is not among the
sources); it joins import path and name with a dot. -/
def NamedString (path name : String) : String :=
  path ++ "." ++ name

/-- Go `scanner.Field` -/
structure Field where
  Name : String
  Typ : Typ
  deriving DecidableEq, Repr

/-- Go `scanner.Struct` -/
structure Struct where
  Name : String
  Fields : List Field
  deriving DecidableEq, Repr

/-- Go `scanner.Enum` -/
structure Enum where
  Name : String
  Values : List String
  deriving DecidableEq, Repr

/-- Go `scanner.Package` -/
structure Package where
  Path : String
  Structs : List Struct
  Enums : List Enum
  deriving DecidableEq, Repr

end scanner

/-- The schema `Type` interface of package protobuf; `nil` is the nil interface value. -/
inductive Typ where
  | nil
  | Basic (Name : String)
  | Named (Package Name : String) (Generated : Bool)
  | Map (Key Value : Typ)
  deriving DecidableEq, Repr

/-- Go `NewBasic` -/
def NewBasic (name : String) : Typ := .Basic name

/-- Go `NewNamed` -/
def NewNamed (pkg name : String) : Typ := .Named pkg name false

/-- Modelled from the spec: `NewMap` (types.go is not among the sources) combines
the resolved key and value into a schema map type. -/
def NewMap (k v : Typ) : Typ := .Map k v

/-- Modelled from the spec: the `ProtoType` descriptor of a mapping entry (types.go is
not among the sources): import path and schema name, the name being either a
basic schema type or a message of `Package`. -/
structure ProtoType where
  Package : String
  Basic : Bool
  Name : String
  Import : String
  deriving DecidableEq, Repr

/-- Modelled from the spec: `ProtoType.Type`, the schema type a mapping entry yields. -/
def ProtoType.Type (t : ProtoType) : Typ :=
  if t.Basic then NewBasic t.Name else NewNamed t.Package t.Name

/-- Go `TypeMappings`, a `map[string]*ProtoType`. Indexing a Go map with an absent key
gives the nil pointer, and `findMapping` tests the result against nil, so a table
is its lookup function and `none` stands for both an absent key and a nil entry. -/
abbrev TypeMappings := String → Option ProtoType

/-- Go `Field` of a schema message -/
structure Field where
  Name : String
  Pos : Nat
  Typ : Typ
  Repeated : Bool
  Options : Options
  deriving DecidableEq, Repr

/-- Go `Message` -/
structure Message where
  Name : String
  Reserved : List Nat
  Options : Options
  Fields : List Field
  deriving DecidableEq, Repr

/-- Go `EnumValue` -/
structure EnumValue where
  Name : String
  Value : Nat
  Options : Options
  deriving DecidableEq, Repr

/-- Go `Enum` -/
structure Enum where
  Name : String
  Options : Options
  Values : List EnumValue
  deriving DecidableEq, Repr

/-- Go `Package` of the schema model -/
structure Package where
  Name : String
  Path : String
  Imports : List String
  Options : Options
  Messages : List Message
  Enums : List Enum
  deriving DecidableEq, Repr

/-- Modelled from the spec: `Message.Reserve` (package.go is not among the sources)
adds a position to the reserved positions of the message. -/
def Message.Reserve (m : Message) (pos : Nat) : Message :=
  { m with Reserved := m.Reserved ++ [pos] }

/-- Modelled from the spec: the import set of a package is deduplicated by path. -/
def Package.addImport (p : Package) (path : String) : Package :=
  if path ∈ p.Imports then p else { p with Imports := p.Imports ++ [path] }

/-- Modelled from the spec: `Package.Import` (package.go is not among the sources)
imports the declared import path of a mapping entry into the package. -/
def Package.Import (p : Package) (t : ProtoType) : Package :=
  p.addImport t.Import

/-- Modelled from the spec: `Package.ImportFromPath` (package.go is not among the
sources) records a named-type reference by its import path. -/
def Package.ImportFromPath (p : Package) (path : String) : Package :=
  p.addImport path

/-- Go `Plugin`: the five callbacks. Each receives the live package and entity and
may mutate both, so each returns the updated pair. -/
structure Plugin where
  Package : Proteus.Package → scanner.Package → Proteus.Package
  Message : Proteus.Package → Proteus.Message → scanner.Struct →
    Proteus.Package × Proteus.Message
  Field : Proteus.Package → Proteus.Field → scanner.Field → Proteus.Package × Proteus.Field
  Enum : Proteus.Package → Proteus.Enum → scanner.Enum → Proteus.Package × Proteus.Enum
  EnumValue : Proteus.Package → Proteus.EnumValue → String →
    Proteus.Package × Proteus.EnumValue

/-- What the transformer does to the entities, in program order: the two updates of
a message in `transformStruct` and the callbacks of the plugins. A callback event
names the plugin by its index in registration order and the scanned entity it was
given; the `Package` event also holds the package as it is when the callback
starts. -/
inductive Event where
  | Append (pos : Nat)
  | Reserve (pos : Nat)
  | Field (plugin : Nat) (old : scanner.Field)
  | Message (plugin : Nat) (old : scanner.Struct)
  | EnumValue (plugin : Nat) (old : String)
  | Enum (plugin : Nat) (old : scanner.Enum)
  | Package (plugin : Nat) (pkg : Proteus.Package) (old : scanner.Package)
  deriving DecidableEq, Repr

/-- The loop `for _, pl := range p { pl.X(pkg, e, old) }` shared by the five methods
of `plugins`: `cb` is the callback to invoke, `ev` the event logged for the plugin
with index `k`. -/
def plugins.each {α : Type} (cb : Plugin → Package → α → Package × α)
    (ev : Nat → Package → α → Event) :
    Nat → List Plugin → Package → α → Package × α × List Event
  | _, [], pkg, a => (pkg, a, [])
  | k, pl :: ps, pkg, a =>
    let r := cb pl pkg a
    let rest := plugins.each cb ev (k + 1) ps r.1 r.2
    (rest.1, rest.2.1, ev k pkg a :: rest.2.2)

/-- Go `plugins.Package` -/
def plugins.Package (p : List Plugin) (pkg : Proteus.Package) (old : scanner.Package) :
    Proteus.Package × List Event :=
  let r := plugins.each (fun pl pk (_ : Unit) => (pl.Package pk old, ()))
    (fun k pk _ => Event.Package k pk old) 0 p pkg ()
  (r.1, r.2.2)

/-- Go `plugins.Message` -/
def plugins.Message (p : List Plugin) (pkg : Proteus.Package) (msg : Proteus.Message) (old : scanner.Struct) :
    Proteus.Package × Proteus.Message × List Event :=
  plugins.each (fun pl pk m => pl.Message pk m old) (fun k _ _ => Event.Message k old) 0 p pkg msg

/-- Go `plugins.Field` -/
def plugins.Field (p : List Plugin) (pkg : Proteus.Package) (f : Proteus.Field) (old : scanner.Field) :
    Proteus.Package × Proteus.Field × List Event :=
  plugins.each (fun pl pk x => pl.Field pk x old) (fun k _ _ => Event.Field k old) 0 p pkg f

/-- Go `plugins.Enum` -/
def plugins.Enum (p : List Plugin) (pkg : Proteus.Package) (e : Proteus.Enum) (old : scanner.Enum) :
    Proteus.Package × Proteus.Enum × List Event :=
  plugins.each (fun pl pk x => pl.Enum pk x old) (fun k _ _ => Event.Enum k old) 0 p pkg e

/-- Go `plugins.EnumValue` -/
def plugins.EnumValue (p : List Plugin) (pkg : Proteus.Package) (v : Proteus.EnumValue) (old : String) :
    Proteus.Package × Proteus.EnumValue × List Event :=
  plugins.each (fun pl pk x => pl.EnumValue pk x old) (fun k _ _ => Event.EnumValue k old) 0 p pkg v

/-- Go `Transformer` -/
structure Transformer where
  mappings : TypeMappings
  plugins : List Plugin

/-- Go `NewTransformer` -/
def NewTransformer : Transformer :=
  { mappings := fun _ => none, plugins := [] }

/-- Go `Transformer.AddPlugin` (with `plugins.add`) -/
def Transformer.AddPlugin (t : Transformer) (p : Plugin) : Transformer :=
  { t with plugins := t.plugins ++ [p] }

/-- Go `Transformer.SetMappings`; the argument is `none` for a nil map. -/
def Transformer.SetMappings (t : Transformer) (m : Option TypeMappings) : Transformer :=
  match m with
  | none => t
  | some m => { t with mappings := m }

/-- Go `Transformer.findMapping` -/
def Transformer.findMapping (defaultMappings : TypeMappings) (t : Transformer)
    (name : String) : Option ProtoType :=
  match t.mappings name with
  | some typ => some typ
  | none => defaultMappings name

/-- Go `isByteSlice` -/
def isByteSlice (typ : scanner.Typ) : Bool :=
  match typ with
  | .Basic _ name => typ.IsRepeated && decide (name = "byte")
  | _ => false

/-- The mapping function given to `strings.Map` in `toProtobufPkg`. -/
def toProtobufPkg.mapping (u : UnicodeTables) (r : Char) : Char :=
  if r = '/' ∨ r = '.' then '.'
  else if u.IsLetter r || u.IsNumber r then r
  else ' '

/-- The chain `transform.Chain(norm.NFD, runes.Remove(runes.In(unicode.Mn)), norm.NFC)`
applied to a string. -/
def toProtobufPkg.chain (u : UnicodeTables) (s : List Char) : List Char :=
  u.NFC ((u.NFD s).filter (fun r => !u.IsMn r))

/-- Go `toProtobufPkg` -/
def toProtobufPkg (u : UnicodeTables) (path : String) : String :=
  let pkg := path.data.map (toProtobufPkg.mapping u)
  let pkg := pkg.filter (fun r => r ≠ ' ')
  ⟨toProtobufPkg.chain u pkg⟩

/-- The loop of `toLowerSnakeCase` from the rune with index `i` on; `i` counts runes
where the source has the byte offset, both are zero exactly at the first rune. -/
def toLowerSnakeCase.loop (u : UnicodeTables) : List Char → Nat → Bool → List Char
  | [], _, _ => []
  | r :: rs, i, lastWasUpper =>
    (if u.IsUpper r && i != 0 && !lastWasUpper then ['_'] else [])
      ++ u.ToLower r :: toLowerSnakeCase.loop u rs (i + 1) (u.IsUpper r)

/-- Go `toLowerSnakeCase` -/
def toLowerSnakeCase (u : UnicodeTables) (s : String) : String :=
  ⟨toLowerSnakeCase.loop u s.data 0 false⟩

/-- Go `toUpperSnakeCase`; `strings.ToUpper` maps `unicode.ToUpper` over the runes. -/
def toUpperSnakeCase (u : UnicodeTables) (s : String) : String :=
  ⟨(toLowerSnakeCase u s).data.map u.ToUpper⟩

/-- Go `Transformer.transformType`; the arguments of `NewMap` are evaluated left to right. -/
def Transformer.transformType (u : UnicodeTables) (defaultMappings : TypeMappings)
    (t : Transformer) : Package → scanner.Typ → Package × Typ
  | pkg, .Named _ path name =>
    match t.findMapping defaultMappings (scanner.NamedString path name) with
    | some protoType => (pkg.Import protoType, protoType.Type)
    | none => (pkg.ImportFromPath path, NewNamed (toProtobufPkg u path) name)
  | pkg, .Basic _ name =>
    match t.findMapping defaultMappings name with
    | some protoType => (pkg.Import protoType, protoType.Type)
    | none => (pkg, Typ.nil)
  | pkg, .Map _ key value =>
    let k := Transformer.transformType u defaultMappings t pkg key
    let v := Transformer.transformType u defaultMappings t k.1 value
    (v.1, NewMap k.2 v.2)

/-- Go `Transformer.transformField`; `none` is the nil `*Field`. -/
def Transformer.transformField (u : UnicodeTables) (defaultMappings : TypeMappings)
    (t : Transformer) (pkg : Package) (field : scanner.Field) (pos : Nat) :
    Package × Option Field :=
  if isByteSlice field.Typ then
    (pkg, some { Name := toLowerSnakeCase u field.Name, Pos := pos, Typ := NewBasic "bytes",
                 Repeated := false, Options := [] })
  else
    let r := t.transformType u defaultMappings pkg field.Typ
    if r.2 = Typ.nil then (r.1, none)
    else
      (r.1, some { Name := toLowerSnakeCase u field.Name, Pos := pos, Typ := r.2,
                   Repeated := field.Typ.IsRepeated, Options := [] })

/-- The loop of `transformStruct` from the field with index `i` on. The field
pointer is appended to `msg.Fields` before the plugins run on it, so the message
holds the field as the plugins leave it. -/
def Transformer.transformStruct.loop (u : UnicodeTables) (defaultMappings : TypeMappings)
    (t : Transformer) : List scanner.Field → Nat → Package → Message →
    Package × Message × List Event
  | [], _, pkg, msg => (pkg, msg, [])
  | f :: fs, i, pkg, msg =>
    match t.transformField u defaultMappings pkg f (i + 1) with
    | (pkg1, none) =>
      let rest := Transformer.transformStruct.loop u defaultMappings t fs (i + 1) pkg1
        (msg.Reserve (i + 1))
      (rest.1, rest.2.1, Event.Reserve (i + 1) :: rest.2.2)
    | (pkg1, some field) =>
      let cb := Proteus.plugins.Field t.plugins pkg1 field f
      let rest := Transformer.transformStruct.loop u defaultMappings t fs (i + 1) cb.1
        { msg with Fields := msg.Fields ++ [cb.2.1] }
      (rest.1, rest.2.1, Event.Append (i + 1) :: cb.2.2 ++ rest.2.2)

/-- Go `Transformer.transformStruct` -/
def Transformer.transformStruct (u : UnicodeTables) (defaultMappings : TypeMappings)
    (t : Transformer) (pkg : Package) (s : scanner.Struct) : Package × Message × List Event :=
  let msg : Message := { Name := s.Name, Reserved := [], Options := [], Fields := [] }
  let body := Transformer.transformStruct.loop u defaultMappings t s.Fields 0 pkg msg
  let cb := Proteus.plugins.Message t.plugins body.1 body.2.1 s
  (cb.1, cb.2.1, body.2.2 ++ cb.2.2)

/-- The loop of `transformEnum` from the value with index `i` on. -/
def Transformer.transformEnum.loop (u : UnicodeTables) (t : Transformer) :
    List String → Nat → Package → Enum → Package × Enum × List Event
  | [], _, pkg, enum => (pkg, enum, [])
  | v :: vs, i, pkg, enum =>
    let val : EnumValue := { Name := toUpperSnakeCase u v, Value := i, Options := [] }
    let cb := Proteus.plugins.EnumValue t.plugins pkg val v
    let rest := Transformer.transformEnum.loop u t vs (i + 1) cb.1
      { enum with Values := enum.Values ++ [cb.2.1] }
    (rest.1, rest.2.1, cb.2.2 ++ rest.2.2)

/-- Go `Transformer.transformEnum` -/
def Transformer.transformEnum (u : UnicodeTables) (t : Transformer) (pkg : Package)
    (e : scanner.Enum) : Package × Enum × List Event :=
  let enum : Enum := { Name := e.Name, Options := [], Values := [] }
  let body := Transformer.transformEnum.loop u t e.Values 0 pkg enum
  let cb := Proteus.plugins.Enum t.plugins body.1 body.2.1 e
  (cb.1, cb.2.1, body.2.2 ++ cb.2.2)

/-- The first loop of `Transform`, over the structs. -/
def Transformer.Transform.structs (u : UnicodeTables) (defaultMappings : TypeMappings)
    (t : Transformer) : List scanner.Struct → Package → Package × List Event
  | [], pkg => (pkg, [])
  | s :: ss, pkg =>
    let r := t.transformStruct u defaultMappings pkg s
    let pkg1 : Package := { r.1 with Messages := r.1.Messages ++ [r.2.1] }
    let rest := Transformer.Transform.structs u defaultMappings t ss pkg1
    (rest.1, r.2.2 ++ rest.2)

/-- The second loop of `Transform`, over the enums. -/
def Transformer.Transform.enums (u : UnicodeTables) (t : Transformer) :
    List scanner.Enum → Package → Package × List Event
  | [], pkg => (pkg, [])
  | e :: es, pkg =>
    let r := t.transformEnum u pkg e
    let pkg1 : Package := { r.1 with Enums := r.1.Enums ++ [r.2.1] }
    let rest := Transformer.Transform.enums u t es pkg1
    (rest.1, r.2.2 ++ rest.2)

/-- Go `Transformer.Transform` -/
def Transformer.Transform (u : UnicodeTables) (defaultMappings : TypeMappings)
    (t : Transformer) (p : scanner.Package) : Package × List Event :=
  let pkg : Package := { Name := toProtobufPkg u p.Path, Path := p.Path, Imports := [],
                         Options := [], Messages := [], Enums := [] }
  let s := Transformer.Transform.structs u defaultMappings t p.Structs pkg
  let e := Transformer.Transform.enums u t p.Enums s.1
  let cb := Proteus.plugins.Package t.plugins e.1 p
  (cb.1, s.2 ++ e.2 ++ cb.2)

/-- The composition step of `norm.NFC` on the code points covered by `sampleTables`:
a base letter followed by U+0301 composes with it. -/
def sampleTables.compose : List Char → List Char
  | [] => []
  | [c] => [c]
  | c :: d :: rest =>
    if d = Char.ofNat 0x301 ∧ c = 'e' then Char.ofNat 0xE9 :: sampleTables.compose rest
    else if d = Char.ofNat 0x301 ∧ c = 'E' then Char.ofNat 0xC9 :: sampleTables.compose rest
    else c :: sampleTables.compose (d :: rest)

/-- The Unicode tables restricted to Basic Latin, U+00C9, U+00E9 (E and e with acute),
U+0301 (combining acute accent), U+65E5 (a CJK ideograph: a letter without case
and without decomposition), U+1D400 and U+1D41A (mathematical bold capital and
small a: an upper-case and a lower-case letter without case mappings and without
canonical decomposition), on which they agree with Go; used to evaluate the
definitions at concrete inputs made of these code points. -/
def sampleTables : UnicodeTables where
  IsLetter c := c.isAlpha || c = Char.ofNat 0xE9 || c = Char.ofNat 0xC9 || c = Char.ofNat 0x65E5
    || c = Char.ofNat 0x1D400 || c = Char.ofNat 0x1D41A
  IsNumber c := c.isDigit
  IsUpper c := c.isUpper || c = Char.ofNat 0xC9 || c = Char.ofNat 0x1D400
  IsLower c := c.isLower || c = Char.ofNat 0xE9 || c = Char.ofNat 0x1D41A
  ToLower c := if c = Char.ofNat 0xC9 then Char.ofNat 0xE9 else c.toLower
  ToUpper c := if c = Char.ofNat 0xE9 then Char.ofNat 0xC9 else c.toUpper
  IsMn c := c = Char.ofNat 0x301
  NFD s := s.flatMap (fun c =>
    if c = Char.ofNat 0xE9 then ['e', Char.ofNat 0x301]
    else if c = Char.ofNat 0xC9 then ['E', Char.ofNat 0x301]
    else [c])
  NFC s := sampleTables.compose s

/-- A mapping table in the shape of the built-in defaults, holding the entries for
`string`, `int64` and `time.Time`; used to evaluate the definitions at concrete inputs. -/
def sampleDefaults : TypeMappings := fun name =>
  if name = "string" then some { Package := "", Basic := true, Name := "string", Import := "" }
  else if name = "int64" then some { Package := "", Basic := true, Name := "int64", Import := "" }
  else if name = "time.Time" then
    some { Package := "google.protobuf", Basic := false, Name := "Timestamp",
           Import := "google/protobuf/timestamp.proto" }
  else none

/-- A plugin that sets one option on every entity it is shown and changes nothing else. -/
def samplePlugin : Plugin where
  Package pkg _ := { pkg with Options := ("seen", "true") :: pkg.Options }
  Message pkg m _ := (pkg, { m with Options := ("seen", "true") :: m.Options })
  Field pkg f _ := (pkg, { f with Options := ("seen", "true") :: f.Options })
  Enum pkg e _ := (pkg, { e with Options := ("seen", "true") :: e.Options })
  EnumValue pkg v _ := (pkg, { v with Options := ("seen", "true") :: v.Options })

/-- Whether the code keeps a scanned field, that is, whether `transformField` returns
a field for it. The answer depends neither on the package nor on the position
handed to `transformField` (`transformField_isSome`). This is what the code does,
not what the specification calls a resolved type: see `Transformer.specResolves`. -/
def Transformer.keepsField (u : UnicodeTables) (defaultMappings : TypeMappings)
    (t : Transformer) (f : scanner.Field) : Bool :=
  (t.transformField u defaultMappings
    { Name := "", Path := "", Imports := [], Options := [], Messages := [], Enums := [] }
    f 0).2.isSome

/-- Whether a scanned type resolves, in the words of the specification: a basic type
exactly when the mapping tables have an entry for it, a named type always (a miss
is resolved optimistically by import path and name), a map exactly when its key
and its value both resolve. -/
def Transformer.specResolvesType (defaultMappings : TypeMappings) (t : Transformer) :
    scanner.Typ → Bool
  | .Basic _ name => (t.findMapping defaultMappings name).isSome
  | .Named _ _ _ => true
  | .Map _ key value =>
    Transformer.specResolvesType defaultMappings t key
      && Transformer.specResolvesType defaultMappings t value

/-- Whether the type of a scanned field resolves, in the words of the specification:
a `[]byte` field always, any other field when its type resolves. -/
def Transformer.specResolves (defaultMappings : TypeMappings) (t : Transformer)
    (f : scanner.Field) : Bool :=
  isByteSlice f.Typ || t.specResolvesType defaultMappings f.Typ

/-- A plugin leaves field positions alone: its `Field` callback keeps `Pos`, and its
`Message` callback keeps the positions of the fields of the message, in order. -/
def Plugin.KeepsPos (p : Plugin) : Prop :=
  (∀ pkg f old, (p.Field pkg f old).2.Pos = f.Pos) ∧
  (∀ pkg m old, (p.Message pkg m old).2.Fields.map Field.Pos = m.Fields.map Field.Pos)

/-- A plugin leaves the reserved positions of a message alone. -/
def Plugin.KeepsReserved (p : Plugin) : Prop :=
  ∀ pkg m old, (p.Message pkg m old).2.Reserved = m.Reserved

/-- A plugin leaves the structure of enums alone: its `EnumValue` callback keeps `Name`
and `Value`, and its `Enum` callback keeps the name of the enum and its values. -/
def Plugin.KeepsEnum (p : Plugin) : Prop :=
  (∀ pkg v old, (p.EnumValue pkg v old).2.Name = v.Name ∧ (p.EnumValue pkg v old).2.Value = v.Value) ∧
  (∀ pkg e old, (p.Enum pkg e old).2.Name = e.Name ∧
    (p.Enum pkg e old).2.Values.map (fun v => (v.Name, v.Value))
      = e.Values.map (fun v => (v.Name, v.Value)))

/-- A transformer with no custom mappings and one registered plugin. -/
def sampleTransformer : Transformer :=
  { mappings := fun _ => none, plugins := [samplePlugin] }

/-- The package `Transform` starts from for the import path `a/b`. -/
def samplePackage : Package :=
  { Name := "a.b", Path := "a/b", Imports := [], Options := [], Messages := [], Enums := [] }

/-- A scanned struct with a mapped basic field, an unmapped basic field, a map with
an unmapped key, a `[]byte` field, a mapped named field and an unmapped named field. -/
def sampleStruct : scanner.Struct :=
  { Name := "S",
    Fields := [⟨"A", .Basic false "string"⟩, ⟨"Bad", .Basic false "foo"⟩,
               ⟨"M", .Map false (.Basic false "foo") (.Basic false "string")⟩,
               ⟨"B", .Basic true "byte"⟩, ⟨"T", .Named false "time" "Time"⟩,
               ⟨"N", .Named false "a/b" "X"⟩] }

/-- A scanned enum with two values. -/
def sampleEnum : scanner.Enum :=
  { Name := "Color", Values := ["red", "darkBlue"] }

/-- The scanned fields handed to the `Field` callback of plugin `j`, in the order of
the calls. -/
def fieldCallsOf (j : Nat) (trace : List Event) : List scanner.Field :=
  trace.filterMap (fun e =>
    match e with
    | .Field k old => if k = j then some old else none
    | _ => none)

/-- The package name in the words of the specification, to be compared with
`toProtobufPkg`: every `/` and every `.` becomes one `.`, every other rune that is
neither a letter nor a number is removed, letters and numbers are kept in order. -/
def toProtobufPkgSpec (u : UnicodeTables) (path : String) : String :=
  ⟨path.data.filterMap (fun r =>
    if r = '/' ∨ r = '.' then some '.'
    else if u.IsLetter r || u.IsNumber r then some r
    else none)⟩

/-- The part of a package that only `Transform` itself is meant to build: its name,
path, messages and enums. -/
def Package.shape (p : Package) : String × String × List Message × List Enum :=
  (p.Name, p.Path, p.Messages, p.Enums)

/-- A plugin leaves the structure of the package alone: none of its callbacks changes
the name, the path, the messages or the enums of the package it is handed. -/
def Plugin.KeepsPackage (p : Plugin) : Prop :=
  (∀ pkg old, (p.Package pkg old).shape = pkg.shape) ∧
  (∀ pkg m old, (p.Message pkg m old).1.shape = pkg.shape) ∧
  (∀ pkg f old, (p.Field pkg f old).1.shape = pkg.shape) ∧
  (∀ pkg e old, (p.Enum pkg e old).1.shape = pkg.shape) ∧
  (∀ pkg v old, (p.EnumValue pkg v old).1.shape = pkg.shape)

/-- A plugin leaves the names of messages and enums alone. -/
def Plugin.KeepsNames (p : Plugin) : Prop :=
  (∀ pkg m old, (p.Message pkg m old).2.Name = m.Name) ∧
  (∀ pkg e old, (p.Enum pkg e old).2.Name = e.Name)

/-- The plugin whose `Package` callback an event records, if it records one. -/
def Event.packagePlugin : Event → Option Nat
  | .Package k _ _ => some k
  | _ => none

/-- A scanned package with `sampleStruct` and `sampleEnum`. -/
def sampleScanned : scanner.Package :=
  { Path := "a/b", Structs := [sampleStruct], Enums := [sampleEnum] }

/-! ### The service code generator

Package rpc is represented among the sources by its tests and by the server it
generated for `src/example` only. The definitions below are modelled from the
specification and agree with the expectations of `TestDeclMethod`,
`TestServiceImplName` and `TestConstructorName` and with the functions of
`src/example/server.proteus.go`. -/

/-- Modelled from the spec: `NewGeneratedNamed` (types.go is not among the sources), a
reference to a message synthesised to wrap the arguments or results of a call. -/
def NewGeneratedNamed (pkg name : String) : Typ := .Named pkg name true

/-- Modelled from the spec: the RPC descriptor `protobuf.RPC` (package.go is not among
the sources), with the fields the tests set. -/
structure RPC where
  Name : String
  Method : String
  Recv : String
  HasError : Bool
  Input : Typ
  Output : Typ
  deriving DecidableEq, Repr

/-- Modelled from the spec: whether an input or output is a generated type rather than
an external one. -/
def Typ.IsGenerated : Typ → Bool
  | .Named _ _ g => g
  | _ => false

/-- Modelled from the spec: the name of the message an input or output refers to. -/
def Typ.MessageName : Typ → String
  | .Named _ name _ => name
  | .Basic name => name
  | _ => ""

/-- Modelled from the spec: the number of fields of the message of the schema with the
given name; a name the schema has no message for has no fields. -/
def Package.numFields (p : Package) (name : String) : Nat :=
  match p.Messages.find? (fun m => decide (m.Name = name)) with
  | some m => m.Fields.length
  | none => 0

/-- Modelled from the spec: `P` with its first character mapped through `f`. -/
def mapFirst (f : Char → Char) (s : String) : String :=
  match s.data with
  | [] => ""
  | c :: cs => ⟨f c :: cs⟩

/-- The part of a dotted name after its last dot, the whole name when it has no dot. -/
def lastSegment (s : String) : String :=
  ⟨(s.data.reverse.takeWhile (fun c => c ≠ '.')).reverse⟩

/-- The name of the implementation type in the words of the specification, to be
compared with `serviceImplName`: the package name with its first character
lower-cased, followed by `ServiceServer`. -/
def serviceImplNameSpec (u : UnicodeTables) (pkg : Package) : String :=
  mapFirst u.ToLower pkg.Name ++ "ServiceServer"

/-- The name of the constructor in the words of the specification, to be compared
with `constructorName`: `New`, the package name with its first character
upper-cased, `ServiceServer`. -/
def constructorNameSpec (u : UnicodeTables) (pkg : Package) : String :=
  "New" ++ mapFirst u.ToUpper pkg.Name ++ "ServiceServer"

/-- Modelled from the spec: `serviceImplName` (rpc.go is not among the sources), the name
of the implementation type: the name of the package with its first character
lower-cased, followed by `ServiceServer`. The name taken is the last segment of the
dotted schema package name: `Transform` names the package of `src/example`
`gopkg.in.srcd.proteus.v1.example`, and its generated server declares
`exampleServiceServer` (`src/example/server.proteus.go`, line 8). -/
def serviceImplName (u : UnicodeTables) (pkg : Package) : String :=
  mapFirst u.ToLower (lastSegment pkg.Name) ++ "ServiceServer"

/-- Modelled from the spec: `constructorName` (rpc.go is not among the sources): `New`,
the name of the package with its first character upper-cased, `ServiceServer`. The
name taken is the last segment of the dotted schema package name, as in
`NewExampleServiceServer` (`src/example/server.proteus.go`, line 11). -/
def constructorName (u : UnicodeTables) (pkg : Package) : String :=
  "New" ++ mapFirst u.ToUpper (lastSegment pkg.Name) ++ "ServiceServer"

/-- Modelled from the spec: what the generator reads of the Go package of its context
(a `types.Package` in the tests): whether the function `Method`, or the method
`Method` of `Recv`, returns its first result as a value rather than as a pointer.
The spec does not speak of it; `src/example/server.proteus.go` shows that the
generator tells the two apart (lines 14-19 against lines 30-34). -/
structure GoPackage where
  ReturnsValue : String → String → Bool

/-- Modelled from the spec: a statement of the body of a dispatch function:
`result = new(T)`, the call with its left-hand side, target and arguments (each an
expression in source form), the call defining its left-hand side with `:=`,
`result = &aux`, or `return`. -/
inductive Stmt where
  | Alloc (typ : Typ)
  | Call (lhs : List String) (target : String) (args : List String)
  | Define (lhs : List String) (target : String) (args : List String)
  | AddressOf
  | Return
  deriving DecidableEq, Repr

/-- Modelled from the spec: a dispatch declaration
`func (s *Impl) Name(ctx context.Context, in *Input) (result *Output, err error)`. -/
structure FuncDecl where
  Name : String
  Impl : String
  Input : Typ
  Output : Typ
  Body : List Stmt
  deriving DecidableEq, Repr

/-- Modelled from the spec: the expressions `base1, ..., basen`, as in `in.Arg1` or
`result.Result1`. -/
def numbered (base : String) (n : Nat) : List String :=
  (List.range n).map (fun i => base ++ toString (i + 1))

/-- Modelled from the spec: the arguments of the call. An external input is passed as
it is, a generated input is passed field by field. -/
def callArgs (proto : Package) (rpc : RPC) : List String :=
  if rpc.Input.IsGenerated then numbered "in.Arg" (proto.numFields rpc.Input.MessageName)
  else ["in"]

/-- Modelled from the spec: whether the call goes through the variable `aux`: the
output is external and the function returns a value, of which `result` takes the
address (`aux := GetAlphaTime()` then `result = &aux` in
`src/example/server.proteus.go`). -/
def viaAux (goPkg : GoPackage) (rpc : RPC) : Bool :=
  !rpc.Output.IsGenerated && goPkg.ReturnsValue rpc.Recv rpc.Method

/-- Modelled from the spec: the left-hand side of the call. A generated output takes
the results field by field; an external output takes the result as a whole, in
`result` when the function returns a pointer and in `aux` when it returns a value;
the error outcome comes last when the call has one. -/
def callLhs (proto : Package) (goPkg : GoPackage) (rpc : RPC) : List String :=
  (if rpc.Output.IsGenerated then
      numbered "result.Result" (proto.numFields rpc.Output.MessageName)
    else if viaAux goPkg rpc then ["aux"]
    else ["result"])
    ++ (if rpc.HasError then ["err"] else [])

/-- Modelled from the spec: the call target, the free function `Method` or the method
of the field of the implementation instance named after `Recv`. -/
def callTarget (rpc : RPC) : String :=
  if rpc.Recv = "" then rpc.Method else "s." ++ rpc.Recv ++ "." ++ rpc.Method

/-- Modelled from the spec: `Generator.declMethod` (rpc.go is not among the sources), the
dispatch declaration of one RPC descriptor for the implementation type `implName`,
the schema `proto` and the Go package `goPkg`. The result is allocated unless the
output is a generated message without fields. -/
def declMethod (implName : String) (proto : Package) (goPkg : GoPackage) (rpc : RPC) :
    FuncDecl :=
  let alloc : List Stmt :=
    if rpc.Output.IsGenerated && proto.numFields rpc.Output.MessageName == 0 then []
    else [Stmt.Alloc rpc.Output]
  let call : List Stmt :=
    if viaAux goPkg rpc then
      [Stmt.Define (callLhs proto goPkg rpc) (callTarget rpc) (callArgs proto rpc),
       Stmt.AddressOf]
    else [Stmt.Call (callLhs proto goPkg rpc) (callTarget rpc) (callArgs proto rpc)]
  { Name := rpc.Name, Impl := implName, Input := rpc.Input, Output := rpc.Output,
    Body := alloc ++ call ++ [Stmt.Return] }

/-- Modelled from the spec: the source form of a comma-separated expression list. -/
def commaList (xs : List String) : String :=
  ", ".intercalate xs

/-- Modelled from the spec: the source form of the call statement of a dispatch function
as `go/printer` prints it in the tests. -/
def renderCall (lhs : List String) (target : String) (args : List String) : String :=
  (if lhs = [] then "" else commaList lhs ++ " = ") ++ target ++ "(" ++ commaList args ++ ")"

/-- Modelled from the spec: the source form of a statement of a dispatch function, but
for the allocation, whose type is printed relative to the Go package, and for
`return`. -/
def Stmt.render : Stmt → Option String
  | .Call lhs target args => some (renderCall lhs target args)
  | .Define lhs target args =>
    some (commaList lhs ++ " := " ++ target ++ "(" ++ commaList args ++ ")")
  | .AddressOf => some "result = &aux"
  | _ => none

/-- A message with `n` fields; only the number of fields matters, the fields are
placeholders. -/
def messageOf (name : String) (n : Nat) : Message :=
  { Name := name, Reserved := [], Options := [],
    Fields := List.replicate n
      { Name := "", Pos := 0, Typ := Typ.nil, Repeated := false, Options := [] } }

/-- The schema package of `TestDeclMethod`. -/
def testProto : Package :=
  { Name := "", Path := "", Imports := [], Options := [],
    Messages := [messageOf "FooRequest" 3, messageOf "FooResponse" 1,
                 messageOf "T_FooResponse" 1, messageOf "Empty" 0],
    Enums := [] }

/-- The Go package of `TestDeclMethod` (`testPkg` in rpc_test.go): `DoFoo` and `MoreFoo`
return pointers, the method `Foo` of `T` returns an `int`. -/
def testGoPkg : GoPackage :=
  { ReturnsValue := fun recv method => decide (recv = "T" ∧ method = "Foo") }

/-- The call statements of a dispatch declaration, each as left-hand side, target and
arguments. -/
def FuncDecl.calls (d : FuncDecl) : List (List String × String × List String) :=
  d.Body.filterMap (fun st =>
    match st with
    | .Call lhs target args => some (lhs, target, args)
    | .Define lhs target args => some (lhs, target, args)
    | _ => none)

/-- Whether a dispatch declaration allocates its result with `result = new(T)`. -/
def FuncDecl.allocates (d : FuncDecl) : Bool :=
  d.Body.any (fun st =>
    match st with
    | .Alloc _ => true
    | _ => false)

/-- The RPC descriptors of `TestDeclMethod`, in the order of the test cases. -/
def testRPCs : List RPC :=
  [{ Name := "DoFoo", Method := "DoFoo", Recv := "", HasError := false,
     Input := NewNamed "" "Foo", Output := NewNamed "" "Bar" },
   { Name := "DoFoo", Method := "DoFoo", Recv := "", HasError := false,
     Input := NewGeneratedNamed "" "FooRequest", Output := NewGeneratedNamed "" "FooResponse" },
   { Name := "DoFoo", Method := "DoFoo", Recv := "", HasError := true,
     Input := NewGeneratedNamed "" "FooRequest", Output := NewGeneratedNamed "" "FooResponse" },
   { Name := "Fooer_DoFoo", Method := "DoFoo", Recv := "Fooer", HasError := true,
     Input := NewGeneratedNamed "" "FooRequest", Output := NewGeneratedNamed "" "FooResponse" },
   { Name := "T_Foo", Method := "Foo", Recv := "T", HasError := false,
     Input := NewNamed "go.ast" "BlockStmt", Output := NewGeneratedNamed "" "T_FooResponse" },
   { Name := "Empty", Method := "Empty", Recv := "", HasError := false,
     Input := NewGeneratedNamed "" "Empty", Output := NewGeneratedNamed "" "Empty" },
   { Name := "Empty", Method := "Empty", Recv := "", HasError := true,
     Input := NewGeneratedNamed "" "Empty", Output := NewGeneratedNamed "" "Empty" }]

/-- The schema package of `src/example`, as far as `server.proteus.go` shows it: the
request and response messages of its seven functions with their numbers of fields. -/
def exampleProto : Package :=
  { Name := "gopkg.in.srcd.proteus.v1.example", Path := "gopkg.in/src-d/proteus.v1/example",
    Imports := [], Options := [],
    Messages := [messageOf "GetAlphaTimeRequest" 0, messageOf "GetDurationForLengthRequest" 1,
                 messageOf "GetOmegaTimeRequest" 0, messageOf "GetPhoneRequest" 0,
                 messageOf "RandomCategoryRequest" 0, messageOf "RandomNumberRequest" 2,
                 messageOf "RandomNumberResponse" 1, messageOf "SumRequest" 2,
                 messageOf "SumResponse" 1],
    Enums := [] }

/-- The Go package of `src/example`, as far as `server.proteus.go` shows it:
`GetAlphaTime` and `RandomCategory` return values, whose address the server takes. -/
def exampleGoPkg : GoPackage :=
  { ReturnsValue := fun recv method =>
      decide (recv = "" ∧ (method = "GetAlphaTime" ∨ method = "RandomCategory")) }

/-- The RPC descriptors of the seven functions of `src/example/server.proteus.go`, in
the order of the file. -/
def exampleRPCs : List RPC :=
  [{ Name := "GetAlphaTime", Method := "GetAlphaTime", Recv := "", HasError := false,
     Input := NewGeneratedNamed "" "GetAlphaTimeRequest", Output := NewNamed "" "MyTime" },
   { Name := "GetDurationForLength", Method := "GetDurationForLength", Recv := "",
     HasError := false, Input := NewGeneratedNamed "" "GetDurationForLengthRequest",
     Output := NewNamed "" "MyDuration" },
   { Name := "GetOmegaTime", Method := "GetOmegaTime", Recv := "", HasError := true,
     Input := NewGeneratedNamed "" "GetOmegaTimeRequest", Output := NewNamed "" "MyTime" },
   { Name := "GetPhone", Method := "GetPhone", Recv := "", HasError := false,
     Input := NewGeneratedNamed "" "GetPhoneRequest", Output := NewNamed "" "Product" },
   { Name := "RandomCategory", Method := "RandomCategory", Recv := "", HasError := false,
     Input := NewGeneratedNamed "" "RandomCategoryRequest",
     Output := NewNamed "gopkg.in.srcd.proteus.v1.example.categories" "CategoryOptions" },
   { Name := "RandomNumber", Method := "RandomNumber", Recv := "", HasError := false,
     Input := NewGeneratedNamed "" "RandomNumberRequest",
     Output := NewGeneratedNamed "" "RandomNumberResponse" },
   { Name := "Sum", Method := "Sum", Recv := "", HasError := false,
     Input := NewGeneratedNamed "" "SumRequest", Output := NewGeneratedNamed "" "SumResponse" }]

/-- The body of a dispatch declaration in the source form the tests compare: the name
of the function, whether the result is allocated, and the statements between the
allocation and `return`. -/
def FuncDecl.summary (d : FuncDecl) : String × Bool × List String :=
  (d.Name, d.allocates, d.Body.filterMap Stmt.render)

/-- The runes of `toLowerSnakeCase s` in the words of the specification, to be compared
with `toLowerSnakeCase`: each rune of `s` lower-cased, in order, marked `true` when
an underscore is inserted before it, which is exactly when the rune is upper-case,
is not the first rune, and the rune before it is not upper-case. -/
def snakeMarks (u : UnicodeTables) (s : String) : List (Bool × Char) :=
  ((none :: s.data.map some).zip s.data).map (fun p =>
    (match p.1 with
      | some q => u.IsUpper p.2 && !u.IsUpper q
      | none => false,
     u.ToLower p.2))

/-- The string `toLowerSnakeCase s` in the words of the specification: the marked runes
of `snakeMarks`, each after its underscore when it has one. -/
def toLowerSnakeCaseSpec (u : UnicodeTables) (s : String) : String :=
  ⟨(snakeMarks u s).flatMap (fun m => if m.1 then ['_', m.2] else [m.2])⟩

/-- What `transformField` decides about a schema field: name, position, type and
repeated flag, that is, everything but its options. -/
def Field.core (f : Field) : String × Nat × Proteus.Typ × Bool :=
  (f.Name, f.Pos, f.Typ, f.Repeated)

/-- A plugin leaves the fields of messages alone but for their options: its `Field`
callback keeps name, position, type and repeated flag of the field, and its
`Message` callback keeps them for the fields of the message, in order. -/
def Plugin.KeepsFields (p : Plugin) : Prop :=
  (∀ pkg f old, (p.Field pkg f old).2.core = f.core) ∧
  (∀ pkg m old, (p.Message pkg m old).2.Fields.map Field.core = m.Fields.map Field.core)

/-- One turn of the loop of `transformStruct` in the words of the specification: build
the field for the scanned field at declaration index `p.1`; when there is none,
reserve its position; otherwise run the `Field` callback of every plugin on it, in
registration order, and add it to the message. -/
def Transformer.fieldStep (u : UnicodeTables) (defaultMappings : TypeMappings)
    (t : Transformer) (st : Package × Message) (p : Nat × scanner.Field) : Package × Message :=
  match t.transformField u defaultMappings st.1 p.2 (p.1 + 1) with
  | (pkg1, none) => (pkg1, st.2.Reserve (p.1 + 1))
  | (pkg1, some field) =>
    let r := t.plugins.foldl (fun x pl => pl.Field x.1 x.2 p.2) (pkg1, field)
    (r.1, { st.2 with Fields := st.2.Fields ++ [r.2] })

/-- The part of `Transform` before the `Package` callbacks: the package it creates,
taken through the loop over the structs and the loop over the enums, with the
events of both loops. -/
def Transformer.Transform.loops (u : UnicodeTables) (defaultMappings : TypeMappings)
    (t : Transformer) (p : scanner.Package) : Package × List Event :=
  let pkg : Package := { Name := toProtobufPkg u p.Path, Path := p.Path, Imports := [],
                         Options := [], Messages := [], Enums := [] }
  let s := Transformer.Transform.structs u defaultMappings t p.Structs pkg
  let e := Transformer.Transform.enums u t p.Enums s.1
  (e.1, s.2 ++ e.2)

/-- A scanned struct whose second field has the type `map[string]time.Time`. -/
def sampleMapStruct : scanner.Struct :=
  { Name := "R",
    Fields := [⟨"Bad", .Basic false "foo"⟩,
               ⟨"Seen", .Map false (.Basic false "string") (.Named false "time" "Time")⟩] }

/-! ## Lemmas -/

theorem pluginsEach_events {α : Type} (cb : Plugin → Package → α → Package × α)
    (e : Nat → Event) (k : Nat) (ps : List Plugin) (pkg : Package) (a : α) :
    (plugins.each cb (fun j _ _ => e j) k ps pkg a).2.2 = (List.range' k ps.length).map e := by
  induction ps generalizing k pkg a with
  | nil => rfl
  | cons p ps ih => simp [plugins.each, ih, List.range']

theorem pluginsEach_keeps {α β : Type} (cb : Plugin → Package → α → Package × α)
    (ev : Nat → Package → α → Event) (g : α → β) (ps : List Plugin)
    (h : ∀ p ∈ ps, ∀ pkg a, g (cb p pkg a).2 = g a) (k : Nat) (pkg : Package) (a : α) :
    g (plugins.each cb ev k ps pkg a).2.1 = g a := by
  induction ps generalizing k pkg a with
  | nil => rfl
  | cons p ps ih =>
    simp only [plugins.each]
    rw [ih (fun q hq => h q (List.mem_cons_of_mem _ hq))]
    exact h p (List.mem_cons_self _ _) pkg a

theorem transformType_snd (u : UnicodeTables) (dm : TypeMappings) (t : Transformer)
    (ty : scanner.Typ) (pkg pkg' : Package) :
    (t.transformType u dm pkg ty).2 = (t.transformType u dm pkg' ty).2 := by
  induction ty generalizing pkg pkg' with
  | Basic r name =>
    simp only [Transformer.transformType]
    cases t.findMapping dm name <;> rfl
  | Named r path name =>
    simp only [Transformer.transformType]
    cases t.findMapping dm (scanner.NamedString path name) <;> rfl
  | Map r k v ihk ihv =>
    simp only [Transformer.transformType]
    rw [ihk pkg pkg', ihv (t.transformType u dm pkg k).1 (t.transformType u dm pkg' k).1]

theorem transformField_snd (u : UnicodeTables) (dm : TypeMappings) (t : Transformer)
    (f : scanner.Field) (pos : Nat) (pkg pkg' : Package) :
    (t.transformField u dm pkg f pos).2 = (t.transformField u dm pkg' f pos).2 := by
  unfold Transformer.transformField
  by_cases hb : isByteSlice f.Typ = true
  · simp [hb]
  · simp only [hb, if_false, Bool.false_eq_true]
    rw [transformType_snd u dm t f.Typ pkg pkg']
    split <;> rfl

theorem transformField_isSome (u : UnicodeTables) (dm : TypeMappings) (t : Transformer)
    (f : scanner.Field) (pos : Nat) (pkg : Package) :
    (t.transformField u dm pkg f pos).2.isSome = t.keepsField u dm f := by
  unfold Transformer.keepsField
  rw [transformField_snd u dm t f pos pkg
    { Name := "", Path := "", Imports := [], Options := [], Messages := [], Enums := [] }]
  unfold Transformer.transformField
  by_cases hb : isByteSlice f.Typ = true
  · simp [hb]
  · simp only [hb, if_false, Bool.false_eq_true]
    split <;> rfl

theorem transformField_pos (u : UnicodeTables) (dm : TypeMappings) (t : Transformer)
    (f : scanner.Field) (pos : Nat) (pkg : Package) (fld : Field)
    (h : (t.transformField u dm pkg f pos).2 = some fld) : fld.Pos = pos := by
  unfold Transformer.transformField at h
  by_cases hb : isByteSlice f.Typ = true
  · simp [hb] at h; rw [← h]
  · simp only [hb, if_false, Bool.false_eq_true] at h
    split at h
    · simp at h
    · simp at h; rw [← h]

theorem loop_pos (u : UnicodeTables) (dm : TypeMappings) (t : Transformer)
    (hF : ∀ p ∈ t.plugins, ∀ pkg f old, (p.Field pkg f old).2.Pos = f.Pos)
    (fs : List scanner.Field) (i : Nat) (pkg : Package) (msg : Message) :
    (Transformer.transformStruct.loop u dm t fs i pkg msg).2.1.Fields.map Field.Pos
      = msg.Fields.map Field.Pos
        ++ ((fs.enumFrom i).filter (fun p => t.keepsField u dm p.2)).map (fun p => p.1 + 1) := by
  induction fs generalizing i pkg msg with
  | nil => simp [Transformer.transformStruct.loop]
  | cons f fs ih =>
    have hs := transformField_isSome u dm t f (i + 1) pkg
    rcases hr : t.transformField u dm pkg f (i + 1) with ⟨pkg1, _ | fld⟩
    · rw [hr] at hs
      simp only [Transformer.transformStruct.loop, hr]
      rw [ih]
      simp at hs
      simp [List.enumFrom, hs, Message.Reserve]
    · have hp := transformField_pos u dm t f (i + 1) pkg fld (by rw [hr])
      rw [hr] at hs
      simp only [Transformer.transformStruct.loop, hr]
      rw [ih]
      simp at hs
      have hk : (plugins.Field t.plugins pkg1 fld f).2.1.Pos = fld.Pos :=
        pluginsEach_keeps _ _ Field.Pos t.plugins (fun p hp pk a => hF p hp pk a f) 0 pkg1 fld
      simp [List.enumFrom, hs, hk, hp]

theorem loop_reserved (u : UnicodeTables) (dm : TypeMappings) (t : Transformer)
    (fs : List scanner.Field) (i : Nat) (pkg : Package) (msg : Message) :
    (Transformer.transformStruct.loop u dm t fs i pkg msg).2.1.Reserved
      = msg.Reserved
        ++ ((fs.enumFrom i).filter (fun p => !t.keepsField u dm p.2)).map (fun p => p.1 + 1) := by
  induction fs generalizing i pkg msg with
  | nil => simp [Transformer.transformStruct.loop]
  | cons f fs ih =>
    have hs := transformField_isSome u dm t f (i + 1) pkg
    rcases hr : t.transformField u dm pkg f (i + 1) with ⟨pkg1, _ | fld⟩
    · rw [hr] at hs
      simp only [Transformer.transformStruct.loop, hr]
      rw [ih]
      simp at hs
      simp [List.enumFrom, hs, Message.Reserve]
    · rw [hr] at hs
      simp only [Transformer.transformStruct.loop, hr]
      rw [ih]
      simp at hs
      simp [List.enumFrom, hs]


theorem loop_events (u : UnicodeTables) (dm : TypeMappings) (t : Transformer)
    (fs : List scanner.Field) (i : Nat) (pkg : Package) (msg : Message) :
    (Transformer.transformStruct.loop u dm t fs i pkg msg).2.2
      = (fs.enumFrom i).flatMap (fun p =>
          if t.keepsField u dm p.2 then
            Event.Append (p.1 + 1) :: (List.range t.plugins.length).map (fun j => Event.Field j p.2)
          else [Event.Reserve (p.1 + 1)]) := by
  induction fs generalizing i pkg msg with
  | nil => simp [Transformer.transformStruct.loop]
  | cons f fs ih =>
    have hs := transformField_isSome u dm t f (i + 1) pkg
    rcases hr : t.transformField u dm pkg f (i + 1) with ⟨pkg1, _ | fld⟩
    · rw [hr] at hs
      simp only [Transformer.transformStruct.loop, hr]
      rw [ih]
      simp at hs
      simp [List.enumFrom, hs]
    · rw [hr] at hs
      simp only [Transformer.transformStruct.loop, hr]
      rw [ih]
      simp at hs
      have he : (plugins.Field t.plugins pkg1 fld f).2.2
          = (List.range t.plugins.length).map (fun j => Event.Field j f) := by
        unfold plugins.Field
        rw [pluginsEach_events, List.range_eq_range']
      simp [List.enumFrom, hs, he]



theorem enumFrom_positions {α : Type} (fs : List α) (i : Nat) :
    (fs.enumFrom i).map (fun p => p.1 + 1) = List.range' (i + 1) fs.length := by
  induction fs generalizing i with
  | nil => rfl
  | cons f fs ih => simp [List.enumFrom, List.range', ih]

theorem count_filter_split {α : Type} (L : List (Nat × α)) (r : Nat × α → Bool)
    (g : Nat × α → Nat) (q : Nat) :
    ((L.filter r).map g).count q + ((L.filter (fun p => !r p)).map g).count q
      = (L.map g).count q := by
  induction L with
  | nil => rfl
  | cons a L ih =>
    cases hr : r a <;> simp [List.filter, hr, List.count_cons] <;> omega

theorem transformStruct_fields_pos (u : UnicodeTables) (dm : TypeMappings) (t : Transformer)
    (pkg : Package) (s : scanner.Struct) (h : ∀ p ∈ t.plugins, p.KeepsPos) :
    (t.transformStruct u dm pkg s).2.1.Fields.map Field.Pos
      = (s.Fields.enum.filter (fun p => t.keepsField u dm p.2)).map (fun p => p.1 + 1) := by
  unfold Transformer.transformStruct
  simp only
  have hk := pluginsEach_keeps (fun pl pk m => pl.Message pk m s) (fun k _ _ => Event.Message k s)
    (fun m : Message => m.Fields.map Field.Pos) t.plugins (fun p hp pk a => (h p hp).2 pk a s) 0
  unfold plugins.Message
  rw [hk, loop_pos u dm t (fun p hp => (h p hp).1)]
  simp [List.enum]

theorem transformStruct_reserved_eq (u : UnicodeTables) (dm : TypeMappings) (t : Transformer)
    (pkg : Package) (s : scanner.Struct) (h : ∀ p ∈ t.plugins, p.KeepsReserved) :
    (t.transformStruct u dm pkg s).2.1.Reserved
      = (s.Fields.enum.filter (fun p => !t.keepsField u dm p.2)).map (fun p => p.1 + 1) := by
  unfold Transformer.transformStruct
  simp only
  have hk := pluginsEach_keeps (fun pl pk m => pl.Message pk m s) (fun k _ _ => Event.Message k s)
    (fun m : Message => m.Reserved) t.plugins (fun p hp pk a => h p hp pk a s) 0
  unfold plugins.Message
  rw [hk, loop_reserved u dm t]
  simp [List.enum]

theorem transformStruct_events (u : UnicodeTables) (dm : TypeMappings) (t : Transformer)
    (pkg : Package) (s : scanner.Struct) :
    (t.transformStruct u dm pkg s).2.2
      = s.Fields.enum.flatMap (fun p =>
          if t.keepsField u dm p.2 then
            Event.Append (p.1 + 1) :: (List.range t.plugins.length).map (fun j => Event.Field j p.2)
          else [Event.Reserve (p.1 + 1)])
        ++ (List.range t.plugins.length).map (fun j => Event.Message j s) := by
  unfold Transformer.transformStruct
  simp only
  rw [loop_events]
  unfold plugins.Message
  rw [pluginsEach_events, List.range_eq_range']
  rfl

theorem samplePlugin_keepsPos : ∀ p ∈ sampleTransformer.plugins, p.KeepsPos := by
  intro p hp
  simp [sampleTransformer] at hp
  subst hp
  exact ⟨fun _ _ _ => rfl, fun _ _ _ => rfl⟩

theorem samplePlugin_keepsReserved : ∀ p ∈ sampleTransformer.plugins, p.KeepsReserved := by
  intro p hp
  simp [sampleTransformer] at hp
  subst hp
  exact fun _ _ _ => rfl

theorem samplePlugin_keepsEnum : ∀ p ∈ sampleTransformer.plugins, p.KeepsEnum := by
  intro p hp
  simp [sampleTransformer] at hp
  subst hp
  exact ⟨fun _ _ _ => ⟨rfl, rfl⟩, fun _ _ _ => ⟨rfl, rfl⟩⟩

theorem reserve_mem_events (u : UnicodeTables) (dm : TypeMappings) (t : Transformer)
    (pkg : Package) (s : scanner.Struct) (i : Nat) :
    Event.Reserve (i + 1) ∈ (t.transformStruct u dm pkg s).2.2
      ↔ ∃ f, s.Fields[i]? = some f ∧ t.keepsField u dm f = false := by
  rw [transformStruct_events]
  simp only [List.mem_append, List.mem_flatMap, List.mem_map, Prod.exists,
    List.mk_mem_enum_iff_getElem?]
  constructor
  · rintro (⟨j, f, hj, hm⟩ | ⟨j, _, hj⟩)
    · by_cases hr : t.keepsField u dm f = true
      · simp [hr] at hm
      · simp [hr] at hm
        subst hm
        exact ⟨f, hj, by simpa using hr⟩
    · cases hj
  · rintro ⟨f, hf, hr⟩
    exact Or.inl ⟨i, f, hf, by simp [hr]⟩

theorem append_mem_events (u : UnicodeTables) (dm : TypeMappings) (t : Transformer)
    (pkg : Package) (s : scanner.Struct) (i : Nat) :
    Event.Append (i + 1) ∈ (t.transformStruct u dm pkg s).2.2
      ↔ ∃ f, s.Fields[i]? = some f ∧ t.keepsField u dm f = true := by
  rw [transformStruct_events]
  simp only [List.mem_append, List.mem_flatMap, List.mem_map, Prod.exists,
    List.mk_mem_enum_iff_getElem?]
  constructor
  · rintro (⟨j, f, hj, hm⟩ | ⟨j, _, hj⟩)
    · by_cases hr : t.keepsField u dm f = true
      · simp [hr] at hm
        subst hm
        exact ⟨f, hj, hr⟩
      · simp [hr] at hm
    · cases hj
  · rintro ⟨f, hf, hr⟩
    exact Or.inl ⟨i, f, hf, by simp [hr]⟩

theorem keepsField_of_some (u : UnicodeTables) (dm : TypeMappings) (t : Transformer)
    (f : scanner.Field) (pos : Nat) (pkg : Package) (fld : Field)
    (h : (t.transformField u dm pkg f pos).2 = some fld) : t.keepsField u dm f = true := by
  rw [← transformField_isSome u dm t f pos pkg, h]
  rfl

theorem filterMap_range_eq (j k : Nat) (f : scanner.Field) :
    (List.range k).filterMap (fun i => if i = j then some f else none)
      = if j < k then [f] else [] := by
  induction k with
  | zero => simp
  | succ k ih =>
    rw [List.range_succ, List.filterMap_append, ih]
    by_cases h1 : j < k
    · have : ¬ k = j := by omega
      simp [h1, this, Nat.lt_succ_of_lt h1]
    · by_cases h2 : k = j
      · subst h2
        simp
      · have : ¬ j < k + 1 := by omega
        simp [h1, h2, this]

theorem fieldCallsOf_flatMap (u : UnicodeTables) (dm : TypeMappings) (t : Transformer)
    (j : Nat) (hj : j < t.plugins.length) (fs : List scanner.Field) (i : Nat) :
    fieldCallsOf j ((fs.enumFrom i).flatMap (fun p =>
        if t.keepsField u dm p.2 then
          Event.Append (p.1 + 1) :: (List.range t.plugins.length).map (fun k => Event.Field k p.2)
        else [Event.Reserve (p.1 + 1)]))
      = fs.filter (fun f => t.keepsField u dm f) := by
  induction fs generalizing i with
  | nil => rfl
  | cons f fs ih =>
    have ih' := ih (i + 1)
    unfold fieldCallsOf at ih' ⊢
    simp only [List.enumFrom, List.flatMap_cons, List.filterMap_append, ih']
    by_cases hr : t.keepsField u dm f = true
    · simp [hr, List.filterMap_map, Function.comp_def, filterMap_range_eq, hj]
    · simp [hr]

theorem enumLoop_values (u : UnicodeTables) (t : Transformer)
    (h : ∀ p ∈ t.plugins, p.KeepsEnum) (vs : List String) (i : Nat) (pkg : Package) (e : Enum) :
    (Transformer.transformEnum.loop u t vs i pkg e).2.1.Values.map (fun v => (v.Name, v.Value))
        = e.Values.map (fun v => (v.Name, v.Value))
          ++ (vs.enumFrom i).map (fun p => (toUpperSnakeCase u p.2, p.1))
      ∧ (Transformer.transformEnum.loop u t vs i pkg e).2.1.Name = e.Name := by
  induction vs generalizing i pkg e with
  | nil => simp [Transformer.transformEnum.loop]
  | cons v vs ih =>
    simp only [Transformer.transformEnum.loop]
    obtain ⟨h1, h2⟩ := ih (i + 1)
      (plugins.EnumValue t.plugins pkg
        { Name := toUpperSnakeCase u v, Value := i, Options := [] } v).1
      { e with Values := e.Values ++ [(plugins.EnumValue t.plugins pkg
        { Name := toUpperSnakeCase u v, Value := i, Options := [] } v).2.1] }
    rw [h1, h2]
    have hk := pluginsEach_keeps (fun pl pk x => pl.EnumValue pk x v)
      (fun k _ _ => Event.EnumValue k v) (fun x : EnumValue => (x.Name, x.Value)) t.plugins
      (fun p hp pk a => by
        have := (h p hp).1 pk a v
        simp [this.1, this.2]) 0 pkg
      { Name := toUpperSnakeCase u v, Value := i, Options := [] }
    unfold plugins.EnumValue
    simp only at hk
    simp [List.enumFrom, hk]

theorem map_filter_eq_kept (u : UnicodeTables) (hs : u.IsLetter ' ' = false)
    (hn : u.IsNumber ' ' = false) (l : List Char) :
    (l.map (toProtobufPkg.mapping u)).filter (fun r => r ≠ ' ')
      = l.filterMap (fun r =>
          if r = '/' ∨ r = '.' then some '.'
          else if u.IsLetter r || u.IsNumber r then some r
          else none) := by
  induction l with
  | nil => rfl
  | cons r l ih =>
    rw [List.map_cons, List.filterMap_cons]
    by_cases h1 : r = '/' ∨ r = '.'
    · have hm : toProtobufPkg.mapping u r = '.' := by simp [toProtobufPkg.mapping, h1]
      have : List.filter (fun r => decide (r ≠ ' ')) ('.' :: List.map (toProtobufPkg.mapping u) l)
          = '.' :: List.filter (fun r => decide (r ≠ ' ')) (List.map (toProtobufPkg.mapping u) l) :=
        List.filter_cons_of_pos (by decide)
      simp only [hm, h1, if_true, this, ih]
    · by_cases h2 : (u.IsLetter r || u.IsNumber r) = true
      · have hm : toProtobufPkg.mapping u r = r := by simp [toProtobufPkg.mapping, h1, h2]
        have hne : r ≠ ' ' := by
          rintro rfl
          simp [hs, hn] at h2
        rw [hm, List.filter_cons_of_pos (by simpa using hne), ih]
        simp only [h1, h2, if_true, if_false]
      · have hm : toProtobufPkg.mapping u r = ' ' := by simp [toProtobufPkg.mapping, h1, h2]
        rw [hm, List.filter_cons_of_neg (by simp), ih]
        simp [h1, h2]

theorem pluginsEach_fst_keeps {α β : Type} (cb : Plugin → Package → α → Package × α)
    (ev : Nat → Package → α → Event) (g : Package → β) (ps : List Plugin)
    (h : ∀ p ∈ ps, ∀ pkg a, g (cb p pkg a).1 = g pkg) (k : Nat) (pkg : Package) (a : α) :
    g (plugins.each cb ev k ps pkg a).1 = g pkg := by
  induction ps generalizing k pkg a with
  | nil => rfl
  | cons p ps ih =>
    simp only [plugins.each]
    rw [ih (fun q hq => h q (List.mem_cons_of_mem _ hq))]
    exact h p (List.mem_cons_self _ _) pkg a

theorem pluginsEach_events_mem {α : Type} (cb : Plugin → Package → α → Package × α)
    (ev : Nat → Package → α → Event) (P : Event → Prop) (h : ∀ j pk a, P (ev j pk a))
    (k : Nat) (ps : List Plugin) (pkg : Package) (a : α) :
    ∀ e ∈ (plugins.each cb ev k ps pkg a).2.2, P e := by
  induction ps generalizing k pkg a with
  | nil => simp [plugins.each]
  | cons p ps ih =>
    intro e he
    simp only [plugins.each, List.mem_cons] at he
    rcases he with rfl | he
    · exact h _ _ _
    · exact ih _ _ _ e he

theorem addImport_shape (pkg : Package) (path : String) :
    (pkg.addImport path).shape = pkg.shape := by
  unfold Package.addImport
  split <;> rfl

theorem transformType_shape (u : UnicodeTables) (dm : TypeMappings) (t : Transformer)
    (ty : scanner.Typ) (pkg : Package) :
    (t.transformType u dm pkg ty).1.shape = pkg.shape := by
  induction ty generalizing pkg with
  | Basic r name =>
    simp only [Transformer.transformType]
    cases t.findMapping dm name <;> simp [Package.Import, addImport_shape]
  | Named r path name =>
    simp only [Transformer.transformType]
    cases t.findMapping dm (scanner.NamedString path name) <;>
      simp [Package.Import, Package.ImportFromPath, addImport_shape]
  | Map r k v ihk ihv =>
    simp only [Transformer.transformType]
    rw [ihv, ihk]

theorem transformField_shape (u : UnicodeTables) (dm : TypeMappings) (t : Transformer)
    (f : scanner.Field) (pos : Nat) (pkg : Package) :
    (t.transformField u dm pkg f pos).1.shape = pkg.shape := by
  unfold Transformer.transformField
  split
  · rfl
  · simp only
    split <;> exact transformType_shape u dm t f.Typ pkg

theorem structLoop_shape (u : UnicodeTables) (dm : TypeMappings) (t : Transformer)
    (h : ∀ p ∈ t.plugins, p.KeepsPackage) (fs : List scanner.Field) (i : Nat) (pkg : Package)
    (msg : Message) :
    (Transformer.transformStruct.loop u dm t fs i pkg msg).1.shape = pkg.shape
      ∧ (Transformer.transformStruct.loop u dm t fs i pkg msg).2.1.Name = msg.Name := by
  induction fs generalizing i pkg msg with
  | nil => exact ⟨rfl, rfl⟩
  | cons f fs ih =>
    have hf := transformField_shape u dm t f (i + 1) pkg
    rcases hr : t.transformField u dm pkg f (i + 1) with ⟨pkg1, _ | fld⟩
    · rw [hr] at hf
      simp only [Transformer.transformStruct.loop, hr]
      obtain ⟨h1, h2⟩ := ih (i + 1) pkg1 (msg.Reserve (i + 1))
      exact ⟨h1.trans hf, h2⟩
    · rw [hr] at hf
      simp only [Transformer.transformStruct.loop, hr]
      obtain ⟨h1, h2⟩ := ih (i + 1) (plugins.Field t.plugins pkg1 fld f).1
        { msg with Fields := msg.Fields ++ [(plugins.Field t.plugins pkg1 fld f).2.1] }
      refine ⟨h1.trans (Eq.trans ?_ hf), h2⟩
      exact pluginsEach_fst_keeps _ _ Package.shape t.plugins
        (fun p hp pk a => (h p hp).2.2.1 pk a f) 0 pkg1 fld

theorem transformStruct_shape (u : UnicodeTables) (dm : TypeMappings) (t : Transformer)
    (h : ∀ p ∈ t.plugins, p.KeepsPackage) (pkg : Package) (s : scanner.Struct) :
    (t.transformStruct u dm pkg s).1.shape = pkg.shape := by
  unfold Transformer.transformStruct
  simp only
  unfold plugins.Message
  rw [pluginsEach_fst_keeps _ _ Package.shape t.plugins (fun p hp pk a => (h p hp).2.1 pk a s)]
  exact (structLoop_shape u dm t h s.Fields 0 pkg _).1

theorem transformStruct_name (u : UnicodeTables) (dm : TypeMappings) (t : Transformer)
    (h : ∀ p ∈ t.plugins, p.KeepsPackage) (hn : ∀ p ∈ t.plugins, p.KeepsNames)
    (pkg : Package) (s : scanner.Struct) :
    (t.transformStruct u dm pkg s).2.1.Name = s.Name := by
  unfold Transformer.transformStruct
  simp only
  unfold plugins.Message
  rw [pluginsEach_keeps _ _ Message.Name t.plugins (fun p hp pk a => (hn p hp).1 pk a s)]
  exact (structLoop_shape u dm t h s.Fields 0 pkg _).2

theorem enumLoop_shape (u : UnicodeTables) (t : Transformer)
    (h : ∀ p ∈ t.plugins, p.KeepsPackage) (vs : List String) (i : Nat) (pkg : Package)
    (e : Enum) :
    (Transformer.transformEnum.loop u t vs i pkg e).1.shape = pkg.shape
      ∧ (Transformer.transformEnum.loop u t vs i pkg e).2.1.Name = e.Name := by
  induction vs generalizing i pkg e with
  | nil => exact ⟨rfl, rfl⟩
  | cons v vs ih =>
    simp only [Transformer.transformEnum.loop]
    obtain ⟨h1, h2⟩ := ih (i + 1)
      (plugins.EnumValue t.plugins pkg
        { Name := toUpperSnakeCase u v, Value := i, Options := [] } v).1
      { e with Values := e.Values ++ [(plugins.EnumValue t.plugins pkg
        { Name := toUpperSnakeCase u v, Value := i, Options := [] } v).2.1] }
    refine ⟨h1.trans ?_, h2⟩
    exact pluginsEach_fst_keeps _ _ Package.shape t.plugins
      (fun p hp pk a => (h p hp).2.2.2.2 pk a v) 0 pkg _

theorem transformEnum_shape (u : UnicodeTables) (t : Transformer)
    (h : ∀ p ∈ t.plugins, p.KeepsPackage) (pkg : Package) (e : scanner.Enum) :
    (t.transformEnum u pkg e).1.shape = pkg.shape := by
  unfold Transformer.transformEnum
  simp only
  unfold plugins.Enum
  rw [pluginsEach_fst_keeps _ _ Package.shape t.plugins (fun p hp pk a => (h p hp).2.2.2.1 pk a e)]
  exact (enumLoop_shape u t h e.Values 0 pkg _).1

theorem transformEnum_name (u : UnicodeTables) (t : Transformer)
    (h : ∀ p ∈ t.plugins, p.KeepsPackage) (hn : ∀ p ∈ t.plugins, p.KeepsNames)
    (pkg : Package) (e : scanner.Enum) :
    (t.transformEnum u pkg e).2.1.Name = e.Name := by
  unfold Transformer.transformEnum
  simp only
  unfold plugins.Enum
  rw [pluginsEach_keeps _ _ Enum.Name t.plugins (fun p hp pk a => (hn p hp).2 pk a e)]
  exact (enumLoop_shape u t h e.Values 0 pkg _).2

theorem shape_eq_iff (a b : Package) :
    a.shape = b.shape
      ↔ a.Name = b.Name ∧ a.Path = b.Path ∧ a.Messages = b.Messages ∧ a.Enums = b.Enums := by
  simp [Package.shape]

theorem transformStruct_no_package_event (u : UnicodeTables) (dm : TypeMappings)
    (t : Transformer) (pkg : Package) (s : scanner.Struct) :
    ∀ e ∈ (t.transformStruct u dm pkg s).2.2, e.packagePlugin = none := by
  intro e he
  rw [transformStruct_events] at he
  simp only [List.mem_append, List.mem_flatMap, List.mem_map] at he
  rcases he with ⟨p, -, hp⟩ | ⟨j, -, rfl⟩
  · split at hp
    · simp only [List.mem_cons, List.mem_map] at hp
      rcases hp with rfl | ⟨j, -, rfl⟩ <;> rfl
    · simp only [List.mem_singleton] at hp
      subst hp
      rfl
  · rfl

theorem enumLoop_no_package_event (u : UnicodeTables) (t : Transformer) (vs : List String)
    (i : Nat) (pkg : Package) (e : Enum) :
    ∀ x ∈ (Transformer.transformEnum.loop u t vs i pkg e).2.2, x.packagePlugin = none := by
  induction vs generalizing i pkg e with
  | nil => simp [Transformer.transformEnum.loop]
  | cons v vs ih =>
    intro x hx
    simp only [Transformer.transformEnum.loop, List.mem_append] at hx
    rcases hx with hx | hx
    · exact pluginsEach_events_mem (fun pl pk x => pl.EnumValue pk x v)
        (fun k _ _ => Event.EnumValue k v) (fun x => x.packagePlugin = none) (fun _ _ _ => rfl)
        0 t.plugins pkg _ x hx
    · exact ih _ _ _ x hx

theorem transformEnum_no_package_event (u : UnicodeTables) (t : Transformer) (pkg : Package)
    (e : scanner.Enum) :
    ∀ x ∈ (t.transformEnum u pkg e).2.2, x.packagePlugin = none := by
  intro x hx
  simp only [Transformer.transformEnum, List.mem_append] at hx
  rcases hx with hx | hx
  · exact enumLoop_no_package_event u t _ _ _ _ x hx
  · exact pluginsEach_events_mem (fun pl pk x => pl.Enum pk x e)
      (fun k _ _ => Event.Enum k e) (fun x => x.packagePlugin = none) (fun _ _ _ => rfl)
      0 t.plugins _ _ x hx

theorem structs_no_package_event (u : UnicodeTables) (dm : TypeMappings) (t : Transformer)
    (ss : List scanner.Struct) (pkg : Package) :
    ∀ x ∈ (Transformer.Transform.structs u dm t ss pkg).2, x.packagePlugin = none := by
  induction ss generalizing pkg with
  | nil => simp [Transformer.Transform.structs]
  | cons s ss ih =>
    intro x hx
    simp only [Transformer.Transform.structs, List.mem_append] at hx
    rcases hx with hx | hx
    · exact transformStruct_no_package_event u dm t pkg s x hx
    · exact ih _ x hx

theorem enums_no_package_event (u : UnicodeTables) (t : Transformer)
    (es : List scanner.Enum) (pkg : Package) :
    ∀ x ∈ (Transformer.Transform.enums u t es pkg).2, x.packagePlugin = none := by
  induction es generalizing pkg with
  | nil => simp [Transformer.Transform.enums]
  | cons e es ih =>
    intro x hx
    simp only [Transformer.Transform.enums, List.mem_append] at hx
    rcases hx with hx | hx
    · exact transformEnum_no_package_event u t pkg e x hx
    · exact ih _ x hx

theorem structs_result (u : UnicodeTables) (dm : TypeMappings) (t : Transformer)
    (h : ∀ p ∈ t.plugins, p.KeepsPackage) (ss : List scanner.Struct) (pkg : Package) :
    (Transformer.Transform.structs u dm t ss pkg).1.Name = pkg.Name
      ∧ (Transformer.Transform.structs u dm t ss pkg).1.Path = pkg.Path
      ∧ (Transformer.Transform.structs u dm t ss pkg).1.Enums = pkg.Enums
      ∧ (Transformer.Transform.structs u dm t ss pkg).1.Messages.length
          = pkg.Messages.length + ss.length
      ∧ ((∀ p ∈ t.plugins, p.KeepsNames) →
          (Transformer.Transform.structs u dm t ss pkg).1.Messages.map Message.Name
            = pkg.Messages.map Message.Name ++ ss.map scanner.Struct.Name) := by
  induction ss generalizing pkg with
  | nil => simp [Transformer.Transform.structs]
  | cons s ss ih =>
    have hs := (shape_eq_iff _ _).1 (transformStruct_shape u dm t h pkg s)
    simp only [Transformer.Transform.structs]
    obtain ⟨h1, h2, h3, h4, h5⟩ := ih
      { (t.transformStruct u dm pkg s).1 with
        Messages := (t.transformStruct u dm pkg s).1.Messages
          ++ [(t.transformStruct u dm pkg s).2.1] }
    refine ⟨h1.trans hs.1, h2.trans hs.2.1, h3.trans hs.2.2.2, ?_, ?_⟩
    · rw [h4]
      simp [hs.2.2.1]
      omega
    · intro hn
      rw [h5 hn]
      simp [hs.2.2.1, transformStruct_name u dm t h hn pkg s]

theorem enums_result (u : UnicodeTables) (t : Transformer)
    (h : ∀ p ∈ t.plugins, p.KeepsPackage) (es : List scanner.Enum) (pkg : Package) :
    (Transformer.Transform.enums u t es pkg).1.Name = pkg.Name
      ∧ (Transformer.Transform.enums u t es pkg).1.Path = pkg.Path
      ∧ (Transformer.Transform.enums u t es pkg).1.Messages = pkg.Messages
      ∧ (Transformer.Transform.enums u t es pkg).1.Enums.length = pkg.Enums.length + es.length
      ∧ ((∀ p ∈ t.plugins, p.KeepsNames) →
          (Transformer.Transform.enums u t es pkg).1.Enums.map Enum.Name
            = pkg.Enums.map Enum.Name ++ es.map scanner.Enum.Name) := by
  induction es generalizing pkg with
  | nil => simp [Transformer.Transform.enums]
  | cons e es ih =>
    have hs := (shape_eq_iff _ _).1 (transformEnum_shape u t h pkg e)
    simp only [Transformer.Transform.enums]
    obtain ⟨h1, h2, h3, h4, h5⟩ := ih
      { (t.transformEnum u pkg e).1 with
        Enums := (t.transformEnum u pkg e).1.Enums ++ [(t.transformEnum u pkg e).2.1] }
    refine ⟨h1.trans hs.1, h2.trans hs.2.1, h3.trans hs.2.2.1, ?_, ?_⟩
    · rw [h4]
      simp [hs.2.2.2]
      omega
    · intro hn
      rw [h5 hn]
      simp [hs.2.2.2, transformEnum_name u t h hn pkg e]

theorem packageChain_plugins (old : scanner.Package) (k : Nat) (ps : List Plugin) (pkg : Package) :
    (plugins.each (fun pl pk (_ : Unit) => (pl.Package pk old, ()))
        (fun j pk _ => Event.Package j pk old) k ps pkg ()).2.2.map Event.packagePlugin
      = (List.range' k ps.length).map some := by
  induction ps generalizing k pkg with
  | nil => rfl
  | cons p ps ih => simp [plugins.each, ih, List.range', Event.packagePlugin]

theorem packageChain_snapshot (old : scanner.Package) (ps : List Plugin)
    (h : ∀ p ∈ ps, p.KeepsPackage) (k : Nat) (pkg : Package) :
    (∀ j pk o, Event.Package j pk o ∈ (plugins.each (fun pl pk (_ : Unit) => (pl.Package pk old, ()))
        (fun j pk _ => Event.Package j pk old) k ps pkg ()).2.2 → pk.shape = pkg.shape)
      ∧ (plugins.each (fun pl pk (_ : Unit) => (pl.Package pk old, ()))
        (fun j pk _ => Event.Package j pk old) k ps pkg ()).1.shape = pkg.shape := by
  induction ps generalizing k pkg with
  | nil => simp [plugins.each]
  | cons p ps ih =>
    obtain ⟨h1, h2⟩ := ih (fun q hq => h q (List.mem_cons_of_mem _ hq)) (k + 1)
      (p.Package pkg old)
    have hp := (h p (List.mem_cons_self _ _)).1 pkg old
    constructor
    · intro j pk o hmem
      simp only [plugins.each, List.mem_cons] at hmem
      rcases hmem with heq | hmem
      · cases heq
        rfl
      · exact (h1 j pk o hmem).trans hp
    · simp only [plugins.each]
      exact h2.trans hp

theorem pluginsEach_fold {α : Type} (cb : Plugin → Package → α → Package × α)
    (ev : Nat → Package → α → Event) (k : Nat) (ps : List Plugin) (pkg : Package) (a : α) :
    ((plugins.each cb ev k ps pkg a).1, (plugins.each cb ev k ps pkg a).2.1)
      = ps.foldl (fun s pl => cb pl s.1 s.2) (pkg, a) := by
  induction ps generalizing k pkg a with
  | nil => rfl
  | cons p ps ih => simp only [plugins.each, List.foldl_cons, ih]

theorem samplePlugin_keepsPackage : ∀ p ∈ sampleTransformer.plugins, p.KeepsPackage := by
  intro p hp
  simp [sampleTransformer] at hp
  subst hp
  exact ⟨fun _ _ => rfl, fun _ _ _ => rfl, fun _ _ _ => rfl, fun _ _ _ => rfl, fun _ _ _ => rfl⟩

theorem samplePlugin_keepsNames : ∀ p ∈ sampleTransformer.plugins, p.KeepsNames := by
  intro p hp
  simp [sampleTransformer] at hp
  subst hp
  exact ⟨fun _ _ _ => rfl, fun _ _ _ => rfl⟩

theorem declMethod_test_cases :
    testRPCs.map (fun rpc => (declMethod "FooServer" testProto testGoPkg rpc).summary)
      = [("DoFoo", true, ["result = DoFoo(in)"]),
         ("DoFoo", true, ["result.Result1 = DoFoo(in.Arg1, in.Arg2, in.Arg3)"]),
         ("DoFoo", true, ["result.Result1, err = DoFoo(in.Arg1, in.Arg2, in.Arg3)"]),
         ("Fooer_DoFoo", true, ["result.Result1, err = s.Fooer.DoFoo(in.Arg1, in.Arg2, in.Arg3)"]),
         ("T_Foo", true, ["result.Result1 = s.T.Foo(in)"]),
         ("Empty", false, ["Empty()"]),
         ("Empty", false, ["err = Empty()"])] := by
  decide

theorem declMethod_example_cases :
    exampleRPCs.map (fun rpc =>
        (declMethod "exampleServiceServer" exampleProto exampleGoPkg rpc).summary)
      = [("GetAlphaTime", true, ["aux := GetAlphaTime()", "result = &aux"]),
         ("GetDurationForLength", true, ["result = GetDurationForLength(in.Arg1)"]),
         ("GetOmegaTime", true, ["result, err = GetOmegaTime()"]),
         ("GetPhone", true, ["result = GetPhone()"]),
         ("RandomCategory", true, ["aux := RandomCategory()", "result = &aux"]),
         ("RandomNumber", true, ["result.Result1 = RandomNumber(in.Arg1, in.Arg2)"]),
         ("Sum", true, ["result.Result1 = Sum(in.Arg1, in.Arg2)"])] := by
  decide

theorem example_service_names :
    serviceImplName sampleTables exampleProto = "exampleServiceServer"
      ∧ constructorName sampleTables exampleProto = "NewExampleServiceServer" := by
  decide

theorem declMethod_calls (implName : String) (proto : Package) (goPkg : GoPackage)
    (rpc : RPC) :
    (declMethod implName proto goPkg rpc).calls
      = [(callLhs proto goPkg rpc, callTarget rpc, callArgs proto rpc)] := by
  unfold declMethod FuncDecl.calls
  simp only
  split <;> split <;> simp

theorem lastSegment_of_dotless (seg : List Char) (h : '.' ∉ seg) :
    lastSegment ⟨seg⟩ = ⟨seg⟩ := by
  unfold lastSegment
  congr 1
  rw [List.takeWhile_eq_self_iff.2, List.reverse_reverse]
  intro c hc
  have hc' : c ∈ seg := by simpa using hc
  simp only [ne_eq, decide_eq_true_eq]
  rintro rfl
  exact h hc'

theorem lastSegment_of_dotted (pre seg : List Char) (h : '.' ∉ seg) :
    lastSegment ⟨pre ++ '.' :: seg⟩ = ⟨seg⟩ := by
  unfold lastSegment
  congr 1
  have hrev : (pre ++ '.' :: seg).reverse = seg.reverse ++ '.' :: pre.reverse := by simp
  rw [hrev, List.takeWhile_append_of_pos, List.takeWhile_cons_of_neg (by simp)]
  · simp
  · intro c hc
    have hc' : c ∈ seg := by simpa using hc
    simp only [ne_eq, decide_eq_true_eq]
    rintro rfl
    exact h hc'

theorem addImport_mem (pkg : Package) (path : String) : path ∈ (pkg.addImport path).Imports := by
  unfold Package.addImport
  split <;> simp_all

theorem snakeLoop_eq_marks (u : UnicodeTables) (l : List Char) (i : Nat) (last : Bool)
    (prev : Option Char) (hi : (i != 0) = prev.isSome)
    (hl : ∀ q, prev = some q → last = u.IsUpper q) :
    toLowerSnakeCase.loop u l i last
      = (((prev :: l.map some).zip l).map (fun p =>
          (match p.1 with
            | some q => u.IsUpper p.2 && !u.IsUpper q
            | none => false,
           u.ToLower p.2))).flatMap (fun m => if m.1 then ['_', m.2] else [m.2]) := by
  induction l generalizing i last prev with
  | nil => rfl
  | cons r rs ih =>
    have ih' := ih (i + 1) (u.IsUpper r) (some r) (by simp) (by simp)
    simp only [toLowerSnakeCase.loop, List.map_cons, List.zip_cons_cons, List.flatMap_cons]
    rw [ih']
    cases prev with
    | none =>
      have hi0 : i = 0 := by simpa using hi
      simp [hi0]
    | some q =>
      have hi1 : (i != 0) = true := by simpa using hi
      have hq := hl q rfl
      simp only [hi1, hq, Bool.and_true]
      by_cases hu : (u.IsUpper r && !u.IsUpper q) = true
      · simp [hu]
      · simp [hu]

theorem snakeMarks_snd (u : UnicodeTables) (l : List Char) (prev : Option Char) :
    (((prev :: l.map some).zip l).map (fun p =>
        ((match p.1 with
            | some q => u.IsUpper p.2 && !u.IsUpper q
            | none => false : Bool),
         u.ToLower p.2))).map Prod.snd = l.map u.ToLower := by
  induction l generalizing prev with
  | nil => rfl
  | cons r rs ih =>
    simp only [List.map_cons, List.zip_cons_cons]
    rw [ih (some r)]

theorem snakeLoop_mem (u : UnicodeTables) (l : List Char) (i : Nat) (last : Bool) :
    ∀ c ∈ toLowerSnakeCase.loop u l i last, c = '_' ∨ ∃ r ∈ l, c = u.ToLower r := by
  induction l generalizing i last with
  | nil => simp [toLowerSnakeCase.loop]
  | cons r rs ih =>
    intro c hc
    simp only [toLowerSnakeCase.loop, List.mem_append, List.mem_cons] at hc
    rcases hc with hc | hc | hc
    · split at hc
      · simp only [List.mem_singleton] at hc
        exact Or.inl hc
      · simp at hc
    · exact Or.inr ⟨r, List.mem_cons_self _ _, hc⟩
    · rcases ih _ _ c hc with h | ⟨q, hq, h⟩
      · exact Or.inl h
      · exact Or.inr ⟨q, List.mem_cons_of_mem _ hq, h⟩

theorem snakeLoop_fixed (u : UnicodeTables) (l : List Char) (i : Nat) (last : Bool)
    (h : ∀ c ∈ l, u.IsUpper c = false ∧ u.ToLower c = c) :
    toLowerSnakeCase.loop u l i last = l := by
  induction l generalizing i last with
  | nil => rfl
  | cons r rs ih =>
    obtain ⟨h1, h2⟩ := h r (List.mem_cons_self _ _)
    simp only [toLowerSnakeCase.loop, h1, h2, Bool.false_and]
    rw [ih _ _ (fun c hc => h c (List.mem_cons_of_mem _ hc))]
    simp

/-- With plugins that leave `Pos` alone, the positions of the fields of the message
returned by `transformStruct` are, in declaration order, the 1-based declaration
indices of the scanned fields that `transformField` keeps; the sequence is strictly
increasing and lies in `1..n`. -/
theorem transformStruct_kept_positions (u : UnicodeTables) (dm : TypeMappings)
    (t : Transformer) (pkg : Package) (s : scanner.Struct)
    (h : ∀ p ∈ t.plugins, p.KeepsPos) :
    (t.transformStruct u dm pkg s).2.1.Fields.map Field.Pos
        = (s.Fields.enum.filter (fun p => t.keepsField u dm p.2)).map (fun p => p.1 + 1)
      ∧ ((t.transformStruct u dm pkg s).2.1.Fields.map Field.Pos).Pairwise (· < ·)
      ∧ ∀ q ∈ (t.transformStruct u dm pkg s).2.1.Fields.map Field.Pos,
          1 ≤ q ∧ q ≤ s.Fields.length := by
  have hsub : ((s.Fields.enum.filter (fun p => t.keepsField u dm p.2)).map (fun p => p.1 + 1)).Sublist
      (List.range' 1 s.Fields.length) := by
    have := enumFrom_positions s.Fields 0
    rw [← this]
    exact List.Sublist.map _ (List.filter_sublist _)
  rw [transformStruct_fields_pos u dm t pkg s h]
  refine ⟨rfl, List.Pairwise.sublist hsub (List.pairwise_lt_range' 1 _), ?_⟩
  intro q hq
  have := hsub.subset hq
  simp at this
  omega

/-- With plugins that leave positions and reserved positions alone, the reserved
positions of the message returned by `transformStruct` are the 1-based declaration
indices of the scanned fields for which `transformField` returned no field; every
position in `1..n` is the `Pos` of exactly one field and not reserved, or is
reserved once and the `Pos` of no field; fields and reserved positions together
number `n`. -/
theorem transformStruct_reserved_positions (u : UnicodeTables) (dm : TypeMappings)
    (t : Transformer) (pkg : Package) (s : scanner.Struct)
    (hp : ∀ p ∈ t.plugins, p.KeepsPos) (hr : ∀ p ∈ t.plugins, p.KeepsReserved) :
    (t.transformStruct u dm pkg s).2.1.Reserved
        = (s.Fields.enum.filter (fun p => !t.keepsField u dm p.2)).map (fun p => p.1 + 1)
      ∧ (∀ q, 1 ≤ q → q ≤ s.Fields.length →
          (((t.transformStruct u dm pkg s).2.1.Fields.map Field.Pos).count q = 1
              ∧ q ∉ (t.transformStruct u dm pkg s).2.1.Reserved)
            ∨ (q ∉ (t.transformStruct u dm pkg s).2.1.Fields.map Field.Pos
              ∧ (t.transformStruct u dm pkg s).2.1.Reserved.count q = 1))
      ∧ (t.transformStruct u dm pkg s).2.1.Fields.length
          + (t.transformStruct u dm pkg s).2.1.Reserved.length = s.Fields.length := by
  have hF := transformStruct_fields_pos u dm t pkg s hp
  have hR := transformStruct_reserved_eq u dm t pkg s hr
  refine ⟨hR, ?_, ?_⟩
  · intro q h1 hn
    have hsplit := count_filter_split s.Fields.enum (fun p => t.keepsField u dm p.2)
      (fun p => p.1 + 1) q
    have hall : (s.Fields.enum.map (fun p => p.1 + 1)).count q = 1 := by
      have := enumFrom_positions s.Fields 0
      rw [List.enum, this]
      apply List.count_eq_one_of_mem (List.nodup_range' 1 _)
      simp
      omega
    rw [hF, hR]
    rw [hall] at hsplit
    simp only [← List.count_pos_iff, Nat.pos_iff_ne_zero, not_not] 
    omega
  · have h1 : (t.transformStruct u dm pkg s).2.1.Fields.length
        = ((t.transformStruct u dm pkg s).2.1.Fields.map Field.Pos).length := by simp
    rw [h1, hF, hR]
    simp only [List.length_map]
    have := List.length_eq_countP_add_countP (fun p : Nat × scanner.Field => t.keepsField u dm p.2)
      s.Fields.enum
    simp only [List.enum_length] at this
    rw [this, List.countP_eq_length_filter, List.countP_eq_length_filter]
    congr 2
    simp

theorem specResolvesType_ne_nil (u : UnicodeTables) (dm : TypeMappings) (t : Transformer)
    (ty : scanner.Typ) (pkg : Package) (h : t.specResolvesType dm ty = true) :
    (t.transformType u dm pkg ty).2 ≠ Typ.nil := by
  have hnil : ∀ pt : ProtoType, pt.Type ≠ Typ.nil := by
    intro pt
    unfold ProtoType.Type NewBasic NewNamed
    split <;> simp
  cases ty with
  | Basic r name =>
    simp only [Transformer.specResolvesType] at h
    simp only [Transformer.transformType]
    cases hf : t.findMapping dm name with
    | none => simp [hf] at h
    | some pt => exact hnil pt
  | Named r path name =>
    simp only [Transformer.transformType]
    cases hf : t.findMapping dm (scanner.NamedString path name) with
    | none => simp [NewNamed]
    | some pt => exact hnil pt
  | Map r k v => simp [Transformer.transformType, NewMap]

theorem keepsField_of_specResolves (u : UnicodeTables) (dm : TypeMappings) (t : Transformer)
    (f : scanner.Field) (h : t.specResolves dm f = true) : t.keepsField u dm f = true := by
  unfold Transformer.keepsField Transformer.transformField
  by_cases hb : isByteSlice f.Typ = true
  · simp [hb]
  · simp only [hb, if_false, Bool.false_eq_true]
    have hs : t.specResolvesType dm f.Typ = true := by
      simpa [Transformer.specResolves, hb] using h
    simp [specResolvesType_ne_nil u dm t f.Typ _ hs]

theorem loop_fields_core (u : UnicodeTables) (dm : TypeMappings) (t : Transformer)
    (hF : ∀ p ∈ t.plugins, ∀ pkg f old, (p.Field pkg f old).2.core = f.core)
    (pkg0 : Package) (fs : List scanner.Field) (i : Nat) (pkg : Package) (msg : Message) :
    (Transformer.transformStruct.loop u dm t fs i pkg msg).2.1.Fields.map Field.core
      = msg.Fields.map Field.core
        ++ ((fs.enumFrom i).filterMap
            (fun p => (t.transformField u dm pkg0 p.2 (p.1 + 1)).2)).map Field.core := by
  induction fs generalizing i pkg msg with
  | nil => simp [Transformer.transformStruct.loop]
  | cons f fs ih =>
    have hs := transformField_snd u dm t f (i + 1) pkg pkg0
    rcases hr : t.transformField u dm pkg f (i + 1) with ⟨pkg1, _ | fld⟩
    · rw [hr] at hs
      simp only [Transformer.transformStruct.loop, hr]
      rw [ih]
      simp only at hs
      simp [List.enumFrom, ← hs, Message.Reserve]
    · rw [hr] at hs
      simp only [Transformer.transformStruct.loop, hr]
      rw [ih]
      simp only at hs
      have hk : (plugins.Field t.plugins pkg1 fld f).2.1.core = fld.core :=
        pluginsEach_keeps _ _ Field.core t.plugins (fun p hp pk a => hF p hp pk a f) 0 pkg1 fld
      simp [List.enumFrom, ← hs, hk]

theorem transformStruct_fields_core (u : UnicodeTables) (dm : TypeMappings) (t : Transformer)
    (pkg : Package) (s : scanner.Struct) (h : ∀ p ∈ t.plugins, p.KeepsFields) :
    (t.transformStruct u dm pkg s).2.1.Fields.map Field.core
      = (s.Fields.enum.filterMap
          (fun p => (t.transformField u dm pkg p.2 (p.1 + 1)).2)).map Field.core := by
  unfold Transformer.transformStruct
  simp only
  have hk := pluginsEach_keeps (fun pl pk m => pl.Message pk m s) (fun k _ _ => Event.Message k s)
    (fun m : Message => m.Fields.map Field.core) t.plugins (fun p hp pk a => (h p hp).2 pk a s) 0
  unfold plugins.Message
  rw [hk, loop_fields_core u dm t (fun p hp => (h p hp).1) pkg]
  simp [List.enum]

theorem samplePlugin_keepsFields : ∀ p ∈ sampleTransformer.plugins, p.KeepsFields := by
  intro p hp
  simp [sampleTransformer] at hp
  subst hp
  exact ⟨fun _ _ _ => rfl, fun _ _ _ => rfl⟩

theorem structLoop_state (u : UnicodeTables) (dm : TypeMappings) (t : Transformer)
    (fs : List scanner.Field) (i : Nat) (pkg : Package) (msg : Message) :
    ((Transformer.transformStruct.loop u dm t fs i pkg msg).1,
        (Transformer.transformStruct.loop u dm t fs i pkg msg).2.1)
      = (fs.enumFrom i).foldl (t.fieldStep u dm) (pkg, msg) := by
  induction fs generalizing i pkg msg with
  | nil => rfl
  | cons f fs ih =>
    rcases hr : t.transformField u dm pkg f (i + 1) with ⟨pkg1, _ | fld⟩
    · simp only [Transformer.transformStruct.loop, hr, List.enumFrom, List.foldl_cons,
        Transformer.fieldStep]
      rw [ih]
    · have hf := pluginsEach_fold (fun pl pk x => pl.Field pk x f)
        (fun k _ _ => Event.Field k f) 0 t.plugins pkg1 fld
      simp only [Transformer.transformStruct.loop, hr, List.enumFrom, List.foldl_cons,
        Transformer.fieldStep]
      rw [ih]
      unfold plugins.Field
      rw [← hf]

theorem transformStruct_state (u : UnicodeTables) (dm : TypeMappings) (t : Transformer)
    (pkg : Package) (s : scanner.Struct) :
    ((t.transformStruct u dm pkg s).1, (t.transformStruct u dm pkg s).2.1)
      = t.plugins.foldl (fun st pl => pl.Message st.1 st.2 s)
          (s.Fields.enum.foldl (t.fieldStep u dm)
            (pkg, { Name := s.Name, Reserved := [], Options := [], Fields := [] })) := by
  have hl := structLoop_state u dm t s.Fields 0 pkg
    { Name := s.Name, Reserved := [], Options := [], Fields := [] }
  have hf := pluginsEach_fold (fun pl pk m => pl.Message pk m s)
    (fun k _ _ => Event.Message k s) 0 t.plugins
    (Transformer.transformStruct.loop u dm t s.Fields 0 pkg
      { Name := s.Name, Reserved := [], Options := [], Fields := [] }).1
    (Transformer.transformStruct.loop u dm t s.Fields 0 pkg
      { Name := s.Name, Reserved := [], Options := [], Fields := [] }).2.1
  unfold Transformer.transformStruct plugins.Message
  simp only
  rw [hf, hl]
  rfl

theorem core_mem_fields (u : UnicodeTables) (dm : TypeMappings) (t : Transformer)
    (pkg : Package) (s : scanner.Struct) (h : ∀ p ∈ t.plugins, p.KeepsFields)
    (i : Nat) (f : scanner.Field) (fld : Field) (hi : s.Fields[i]? = some f)
    (hf : (t.transformField u dm pkg f (i + 1)).2 = some fld) :
    fld.core ∈ (t.transformStruct u dm pkg s).2.1.Fields.map Field.core := by
  rw [transformStruct_fields_core u dm t pkg s h]
  refine List.mem_map.2 ⟨fld, ?_, rfl⟩
  refine List.mem_filterMap.2 ⟨(i, f), ?_, hf⟩
  exact List.mk_mem_enum_iff_getElem?.2 hi

theorem not_reserved_of_kept (u : UnicodeTables) (dm : TypeMappings) (t : Transformer)
    (pkg : Package) (s : scanner.Struct) (h : ∀ p ∈ t.plugins, p.KeepsReserved)
    (i : Nat) (f : scanner.Field) (hi : s.Fields[i]? = some f)
    (hk : t.keepsField u dm f = true) :
    (i + 1) ∉ (t.transformStruct u dm pkg s).2.1.Reserved := by
  rw [transformStruct_reserved_eq u dm t pkg s h]
  intro hmem
  simp only [List.mem_map, List.mem_filter, Prod.exists] at hmem
  obtain ⟨j, g, ⟨hjg, hng⟩, hj⟩ := hmem
  have hji : j = i := by omega
  subst hji
  rw [List.mk_mem_enum_iff_getElem?, hi] at hjg
  cases hjg
  simp [hk] at hng

theorem packageChain_events (old : scanner.Package) (k : Nat) (ps : List Plugin) (pkg : Package) :
    (plugins.each (fun pl pk (_ : Unit) => (pl.Package pk old, ()))
        (fun j pk _ => Event.Package j pk old) k ps pkg ()).2.2
      = (List.range ps.length).map (fun j =>
          Event.Package (k + j) ((ps.take j).foldl (fun pk pl => pl.Package pk old) pkg) old) := by
  induction ps generalizing k pkg with
  | nil => rfl
  | cons p ps ih =>
    simp only [plugins.each, List.length_cons, List.range_succ_eq_map, List.map_cons,
      List.take_zero, List.foldl_nil, Nat.add_zero, List.map_map]
    rw [ih]
    congr 1
    apply List.map_congr_left
    intro j _
    simp only [Function.comp_apply, List.take_succ_cons, List.foldl_cons]
    congr 1
    omega

theorem packageChain_result (old : scanner.Package) (k : Nat) (ps : List Plugin) (pkg : Package) :
    (plugins.each (fun pl pk (_ : Unit) => (pl.Package pk old, ()))
        (fun j pk _ => Event.Package j pk old) k ps pkg ()).1
      = ps.foldl (fun pk pl => pl.Package pk old) pkg := by
  induction ps generalizing k pkg with
  | nil => rfl
  | cons p ps ih => simp only [plugins.each, List.foldl_cons, ih]

theorem foldl_package_shape (old : scanner.Package) (ps : List Plugin)
    (h : ∀ p ∈ ps, p.KeepsPackage) (pkg : Package) :
    (ps.foldl (fun pk pl => pl.Package pk old) pkg).shape = pkg.shape := by
  induction ps generalizing pkg with
  | nil => rfl
  | cons p ps ih =>
    simp only [List.foldl_cons]
    rw [ih (fun q hq => h q (List.mem_cons_of_mem _ hq))]
    exact (h p (List.mem_cons_self _ _)).1 pkg old

theorem sampleCompose_mem (l : List Char) :
    ∀ c ∈ sampleTables.compose l, c ∈ l ∨ c = Char.ofNat 0xE9 ∨ c = Char.ofNat 0xC9 := by
  induction l using sampleTables.compose.induct with
  | case1 => simp [sampleTables.compose]
  | case2 c => simp [sampleTables.compose]
  | case3 c d rest h ih =>
    intro x hx
    rw [sampleTables.compose, if_pos h] at hx
    rcases List.mem_cons.1 hx with hx | hx
    · exact Or.inr (Or.inl hx)
    · rcases ih x hx with h1 | h1
      · exact Or.inl (List.mem_cons_of_mem _ (List.mem_cons_of_mem _ h1))
      · exact Or.inr h1
  | case4 c d rest h1 h2 ih =>
    intro x hx
    rw [sampleTables.compose, if_neg h1, if_pos h2] at hx
    rcases List.mem_cons.1 hx with hx | hx
    · exact Or.inr (Or.inr hx)
    · rcases ih x hx with h3 | h3
      · exact Or.inl (List.mem_cons_of_mem _ (List.mem_cons_of_mem _ h3))
      · exact Or.inr h3
  | case5 c d rest h1 h2 ih =>
    intro x hx
    rw [sampleTables.compose, if_neg h1, if_neg h2] at hx
    rcases List.mem_cons.1 hx with hx | hx
    · exact Or.inl (by simp [hx])
    · rcases ih x hx with h3 | h3
      · exact Or.inl (List.mem_cons_of_mem _ h3)
      · exact Or.inr h3

theorem sampleChain_letters (l : List Char)
    (h : ∀ c ∈ l, c = '.' ∨ sampleTables.IsLetter c = true ∨ sampleTables.IsNumber c = true) :
    ∀ c ∈ toProtobufPkg.chain sampleTables l,
      c = '.' ∨ sampleTables.IsLetter c = true ∨ sampleTables.IsNumber c = true := by
  intro c hc
  rcases sampleCompose_mem _ c hc with h1 | h1 | h1
  · rw [List.mem_filter] at h1
    obtain ⟨hmem, hmn⟩ := h1
    have hne : c ≠ Char.ofNat 0x301 := by
      intro heq
      rw [heq] at hmn
      revert hmn
      decide
    have hmem' : ∃ r ∈ l, c ∈ (if r = Char.ofNat 0xE9 then ['e', Char.ofNat 0x301]
        else if r = Char.ofNat 0xC9 then ['E', Char.ofNat 0x301] else [r]) :=
      List.mem_flatMap.1 hmem
    obtain ⟨r, hr, hcr⟩ := hmem'
    by_cases e1 : r = Char.ofNat 0xE9
    · rw [if_pos e1] at hcr
      simp only [List.mem_cons, List.mem_singleton, List.not_mem_nil, or_false] at hcr
      rcases hcr with rfl | hcr
      · decide
      · exact absurd hcr hne
    · rw [if_neg e1] at hcr
      by_cases e2 : r = Char.ofNat 0xC9
      · rw [if_pos e2] at hcr
        simp only [List.mem_cons, List.mem_singleton, List.not_mem_nil, or_false] at hcr
        rcases hcr with rfl | hcr
        · decide
        · exact absurd hcr hne
      · rw [if_neg e2] at hcr
        rw [List.mem_singleton] at hcr
        subst hcr
        exact h _ hr
  · subst h1
    decide
  · subst h1
    decide

/-! ## The claims -/

/-- C1, the code at the failing input: in `sampleStruct` the third field has the type
`map[foo]string`, whose key `foo` is in no mapping table, so its type does not
resolve and the fields whose type resolves are those at the declaration indices
1, 4, 5, 6; yet the message returned by `transformStruct` has fields at the
positions 1, 3, 4, 5, 6. -/
theorem transformStruct_keeps_unresolved_field :
    NewTransformer.specResolves sampleDefaults
        ⟨"M", .Map false (.Basic false "foo") (.Basic false "string")⟩ = false
      ∧ (sampleStruct.Fields.enum.filter
          (fun p => NewTransformer.specResolves sampleDefaults p.2)).map (fun p => p.1 + 1)
        = [1, 4, 5, 6]
      ∧ (NewTransformer.transformStruct sampleTables sampleDefaults samplePackage
          sampleStruct).2.1.Fields.map Field.Pos = [1, 3, 4, 5, 6]
      ∧ (NewTransformer.transformStruct sampleTables sampleDefaults samplePackage
          sampleStruct).2.1.Fields.map Field.Typ
        = [Typ.Basic "string", Typ.Map Typ.nil (Typ.Basic "string"), Typ.Basic "bytes",
           Typ.Named "google.protobuf" "Timestamp" false, Typ.Named "a.b" "X" false] := by
  decide

/-- C2, the code at the failing input: in `sampleStruct` the types of the second and of
the third field do not resolve, so the positions to reserve are 2 and 3; yet the
message returned by `transformStruct` reserves position 2 alone, and position 3 is
the `Pos` of a field. -/
theorem transformStruct_unresolved_field_not_reserved :
    (sampleStruct.Fields.enum.filter
        (fun p => !NewTransformer.specResolves sampleDefaults p.2)).map (fun p => p.1 + 1)
        = [2, 3]
      ∧ (NewTransformer.transformStruct sampleTables sampleDefaults samplePackage
          sampleStruct).2.1.Reserved = [2]
      ∧ 3 ∈ (NewTransformer.transformStruct sampleTables sampleDefaults samplePackage
          sampleStruct).2.1.Fields.map Field.Pos
      ∧ 3 ∉ (NewTransformer.transformStruct sampleTables sampleDefaults samplePackage
          sampleStruct).2.1.Reserved := by
  decide

/-- C3: for a field of scanned type basic `byte` flagged repeated, and for every custom
and default mapping table, `transformField` returns a field, of basic schema type
`bytes` and with `Repeated` false. -/
theorem transformField_byteSlice (u : UnicodeTables) (dm : TypeMappings) (t : Transformer)
    (pkg : Package) (name : String) (pos : Nat) :
    (t.transformField u dm pkg ⟨name, .Basic true "byte"⟩ pos).2
      = some { Name := toLowerSnakeCase u name, Pos := pos, Typ := Typ.Basic "bytes",
               Repeated := false, Options := [] } := by
  simp [Transformer.transformField, isByteSlice, scanner.Typ.IsRepeated, NewBasic]

/-- C4, the code at the failing input: the basic type `foo` has no mapping and does not
resolve, yet the map type with key `foo` resolves to a schema map with a nil key,
`transformField` returns a field for it, and `transformStruct` keeps that field at
position 3 of `sampleStruct` and reserves position 2 only. -/
theorem transformType_map_unresolved_key :
    (NewTransformer.transformType sampleTables sampleDefaults samplePackage
        (.Basic false "foo")).2 = Typ.nil
      ∧ (NewTransformer.transformType sampleTables sampleDefaults samplePackage
        (.Map false (.Basic false "foo") (.Basic false "string"))).2
        = Typ.Map Typ.nil (Typ.Basic "string")
      ∧ (NewTransformer.transformField sampleTables sampleDefaults samplePackage
        ⟨"M", .Map false (.Basic false "foo") (.Basic false "string")⟩ 3).2
        = some { Name := "m", Pos := 3, Typ := Typ.Map Typ.nil (Typ.Basic "string"),
                 Repeated := false, Options := [] }
      ∧ (NewTransformer.transformStruct sampleTables sampleDefaults samplePackage
          sampleStruct).2.1.Reserved = [2]
      ∧ (NewTransformer.transformStruct sampleTables sampleDefaults samplePackage
          sampleStruct).2.1.Fields.map Field.Pos = [1, 3, 4, 5, 6] := by
  decide

/-- C5: for a scanned map type whose key and value resolve, to `K` and `V`,
`transformType` returns the schema map type `Map K V` of two schema types, and
`transformField` returns a field of that type at the position it is given; in
`transformStruct` a field of that type at declaration index `i` is appended and not
reserved, and with plugins that leave fields and reserved positions alone the
returned message holds the field, with its name, position `i + 1`, the type
`Map K V` and its repeated flag, and does not reserve position `i + 1`. -/
theorem transformType_map_resolved (u : UnicodeTables) (dm : TypeMappings) (t : Transformer)
    (pkg : Package) (r : Bool) (key value : scanner.Typ) (K V : Typ)
    (hkey : t.specResolvesType dm key = true) (hvalue : t.specResolvesType dm value = true)
    (hK : (t.transformType u dm pkg key).2 = K) (hV : (t.transformType u dm pkg value).2 = V) :
    K ≠ Typ.nil ∧ V ≠ Typ.nil
      ∧ (t.transformType u dm pkg (.Map r key value)).2 = Typ.Map K V
      ∧ (∀ fname pos,
          (t.transformField u dm pkg ⟨fname, .Map r key value⟩ pos).2
            = some { Name := toLowerSnakeCase u fname, Pos := pos, Typ := Typ.Map K V,
                     Repeated := r, Options := [] })
      ∧ (∀ (s : scanner.Struct) (i : Nat) (fname : String),
          s.Fields[i]? = some ⟨fname, .Map r key value⟩ →
            (Event.Append (i + 1) ∈ (t.transformStruct u dm pkg s).2.2
              ∧ Event.Reserve (i + 1) ∉ (t.transformStruct u dm pkg s).2.2)
            ∧ ((∀ p ∈ t.plugins, p.KeepsFields) →
                (toLowerSnakeCase u fname, i + 1, Typ.Map K V, r)
                  ∈ (t.transformStruct u dm pkg s).2.1.Fields.map Field.core)
            ∧ ((∀ p ∈ t.plugins, p.KeepsReserved) →
                (i + 1) ∉ (t.transformStruct u dm pkg s).2.1.Reserved)) := by
  have hKn : K ≠ Typ.nil := hK ▸ specResolvesType_ne_nil u dm t key pkg hkey
  have hVn : V ≠ Typ.nil := hV ▸ specResolvesType_ne_nil u dm t value pkg hvalue
  have hty : (t.transformType u dm pkg (.Map r key value)).2 = Typ.Map K V := by
    simp only [Transformer.transformType, NewMap]
    rw [hK, transformType_snd u dm t value _ pkg, hV]
  have hfield : ∀ fname pos,
      (t.transformField u dm pkg ⟨fname, .Map r key value⟩ pos).2
        = some { Name := toLowerSnakeCase u fname, Pos := pos, Typ := Typ.Map K V,
                 Repeated := r, Options := [] } := by
    intro fname pos
    simp [Transformer.transformField, isByteSlice, hty, scanner.Typ.IsRepeated]
  refine ⟨hKn, hVn, hty, hfield, ?_⟩
  intro s i fname hi
  have hres := keepsField_of_some u dm t _ _ _ _ (hfield fname (i + 1))
  refine ⟨?_, ?_, ?_⟩
  · rw [append_mem_events, reserve_mem_events]
    refine ⟨⟨_, hi, hres⟩, ?_⟩
    rintro ⟨f, hf, hr⟩
    rw [hi] at hf
    cases hf
    rw [hres] at hr
    cases hr
  · intro hp
    exact core_mem_fields u dm t pkg s hp i _ _ hi (hfield fname (i + 1))
  · intro hp
    exact not_reserved_of_kept u dm t pkg s hp i _ hi hres

/-- Witness of C5: `map[string]time.Time` under the sample default table, as the second
field of `sampleMapStruct`. -/
theorem transformType_map_resolved_witness :
    sampleTransformer.specResolvesType sampleDefaults (.Basic false "string") = true
      ∧ sampleTransformer.specResolvesType sampleDefaults (.Named false "time" "Time") = true
      ∧ (sampleTransformer.transformType sampleTables sampleDefaults samplePackage
          (.Basic false "string")).2 = Typ.Basic "string"
      ∧ (sampleTransformer.transformType sampleTables sampleDefaults samplePackage
          (.Named false "time" "Time")).2 = Typ.Named "google.protobuf" "Timestamp" false
      ∧ ("seen", 2, Typ.Map (Typ.Basic "string") (Typ.Named "google.protobuf" "Timestamp" false),
          false)
          ∈ (sampleTransformer.transformStruct sampleTables sampleDefaults samplePackage
              sampleMapStruct).2.1.Fields.map Field.core
      ∧ 2 ∉ (sampleTransformer.transformStruct sampleTables sampleDefaults samplePackage
              sampleMapStruct).2.1.Reserved := by
  have h := (transformType_map_resolved sampleTables sampleDefaults sampleTransformer
    samplePackage false (.Basic false "string") (.Named false "time" "Time") _ _
    (by decide) (by decide) rfl rfl).2.2.2.2 sampleMapStruct 1 "Seen" (by decide)
  refine ⟨by decide, by decide, by decide, by decide, ?_, ?_⟩
  · have h1 := h.2.1 samplePlugin_keepsFields
    have e1 : toLowerSnakeCase sampleTables "Seen" = "seen" := by decide
    have e2 : (sampleTransformer.transformType sampleTables sampleDefaults samplePackage
        (.Basic false "string")).2 = Typ.Basic "string" := by decide
    have e3 : (sampleTransformer.transformType sampleTables sampleDefaults samplePackage
        (.Named false "time" "Time")).2 = Typ.Named "google.protobuf" "Timestamp" false := by
      decide
    rw [e1, e2, e3] at h1
    exact h1
  · exact h.2.2 samplePlugin_keepsReserved

/-- C6: with plugins that leave the structure of enums alone, `transformEnum` returns an
enum of the same name with exactly `n` values in declaration order, the `i`-th
(0-based) having `Value = i` and `Name = toUpperSnakeCase v_i`, which is
`toLowerSnakeCase v_i` mapped through `unicode.ToUpper`. -/
theorem transformEnum_values (u : UnicodeTables) (t : Transformer) (pkg : Package)
    (e : scanner.Enum) (h : ∀ p ∈ t.plugins, p.KeepsEnum) :
    (t.transformEnum u pkg e).2.1.Name = e.Name
      ∧ (t.transformEnum u pkg e).2.1.Values.map (fun v => (v.Name, v.Value))
          = e.Values.enum.map (fun p => (toUpperSnakeCase u p.2, p.1))
      ∧ (t.transformEnum u pkg e).2.1.Values.length = e.Values.length
      ∧ ∀ v, toUpperSnakeCase u v = ⟨(toLowerSnakeCase u v).data.map u.ToUpper⟩ := by
  have hk := pluginsEach_keeps (fun pl pk x => pl.Enum pk x e) (fun k _ _ => Event.Enum k e)
    (fun x : Enum => (x.Name, x.Values.map (fun v => (v.Name, v.Value)))) t.plugins
    (fun p hp pk a => by
      have := (h p hp).2 pk a e
      simp [this.1, this.2]) 0
  have hl := enumLoop_values u t h e.Values 0 pkg { Name := e.Name, Options := [], Values := [] }
  have hres : ((t.transformEnum u pkg e).2.1.Name,
      (t.transformEnum u pkg e).2.1.Values.map (fun v => (v.Name, v.Value)))
      = (e.Name, e.Values.enum.map (fun p => (toUpperSnakeCase u p.2, p.1))) := by
    unfold Transformer.transformEnum plugins.Enum
    simp only
    rw [hk, hl.1, hl.2]
    simp [List.enum]
  have h1 := congrArg Prod.fst hres
  have h2 := congrArg Prod.snd hres
  simp only at h1 h2
  refine ⟨h1, h2, ?_, fun _ => rfl⟩
  have := congrArg List.length h2
  simpa using this

/-- Witness of C6 on `sampleEnum`. -/
theorem transformEnum_values_witness :
    (∀ p ∈ sampleTransformer.plugins, p.KeepsEnum)
      ∧ (sampleTransformer.transformEnum sampleTables samplePackage sampleEnum).2.1.Values.map
          (fun v => (v.Name, v.Value)) = [("RED", 0), ("DARK_BLUE", 1)] := by
  refine ⟨samplePlugin_keepsEnum, ?_⟩
  rw [(transformEnum_values sampleTables sampleTransformer samplePackage sampleEnum
    samplePlugin_keepsEnum).2.1]
  decide

/-- C7, counterexample: the path made of the letter U+00E9 alone. The letter is kept
by the first pass and then changed to `e` by the normalisation chain, so the result
is not the path with its letters and digits kept. -/
theorem toProtobufPkg_letter_changed :
    toProtobufPkg sampleTables (String.mk [Char.ofNat 0xE9]) = "e"
      ∧ toProtobufPkgSpec sampleTables (String.mk [Char.ofNat 0xE9]) = String.mk [Char.ofNat 0xE9]
      ∧ toProtobufPkg sampleTables (String.mk [Char.ofNat 0xE9])
          ≠ toProtobufPkgSpec sampleTables (String.mk [Char.ofNat 0xE9]) := by
  decide

/-- C7, amended: `toProtobufPkg` is the normalisation chain (NFD, removal of nonspacing
marks, NFC) applied to the string in which every `/` and `.` of the path is one `.`,
every other rune that is neither letter nor number is removed, and letters and
numbers are kept in order; that string holds only letters, numbers and dots, and
so does the result, the normalisation chain taking such strings to such strings;
the result is that string whenever the chain leaves it unchanged. -/
theorem toProtobufPkg_kept_then_normalised (u : UnicodeTables) (path : String)
    (hs : u.IsLetter ' ' = false) (hn : u.IsNumber ' ' = false) :
    toProtobufPkg u path = ⟨toProtobufPkg.chain u (toProtobufPkgSpec u path).data⟩
      ∧ (∀ c ∈ (toProtobufPkgSpec u path).data,
          c = '.' ∨ u.IsLetter c = true ∨ u.IsNumber c = true)
      ∧ ((∀ l : List Char, (∀ c ∈ l, c = '.' ∨ u.IsLetter c = true ∨ u.IsNumber c = true) →
            ∀ c ∈ toProtobufPkg.chain u l, c = '.' ∨ u.IsLetter c = true ∨ u.IsNumber c = true) →
          ∀ c ∈ (toProtobufPkg u path).data,
            c = '.' ∨ u.IsLetter c = true ∨ u.IsNumber c = true)
      ∧ (toProtobufPkg.chain u (toProtobufPkgSpec u path).data = (toProtobufPkgSpec u path).data →
          toProtobufPkg u path = toProtobufPkgSpec u path) := by
  have h1 : toProtobufPkg u path = ⟨toProtobufPkg.chain u (toProtobufPkgSpec u path).data⟩ := by
    simp only [toProtobufPkg, toProtobufPkgSpec]
    rw [map_filter_eq_kept u hs hn]
  have h2 : ∀ c ∈ (toProtobufPkgSpec u path).data,
      c = '.' ∨ u.IsLetter c = true ∨ u.IsNumber c = true := by
    intro c hc
    simp only [toProtobufPkgSpec, List.mem_filterMap] at hc
    obtain ⟨r, -, hr⟩ := hc
    by_cases h1 : r = '/' ∨ r = '.'
    · simp [h1] at hr
      exact Or.inl hr.symm
    · by_cases h2 : (u.IsLetter r || u.IsNumber r) = true
      · simp only [h1, h2, if_true, if_false, Option.some.injEq] at hr
        subst hr
        exact Or.inr (by simpa using h2)
      · simp [h1, h2] at hr
  refine ⟨h1, h2, ?_, ?_⟩
  · intro hchain c hc
    rw [h1] at hc
    exact hchain _ h2 c hc
  · intro hc
    rw [h1, hc]

/-- Witness of C7 amended: `toProtobufPkg "a/b-c.d" = "a.bc.d"`, and the result for a
path with the letter U+00E9 holds only letters, numbers and dots. -/
theorem toProtobufPkg_kept_then_normalised_witness :
    sampleTables.IsLetter ' ' = false ∧ sampleTables.IsNumber ' ' = false
      ∧ toProtobufPkg sampleTables "a/b-c.d" = "a.bc.d"
      ∧ (∀ c ∈ (toProtobufPkg sampleTables (String.mk ['x', '/', Char.ofNat 0xE9, '-'])).data,
          c = '.' ∨ sampleTables.IsLetter c = true ∨ sampleTables.IsNumber c = true) := by
  refine ⟨by decide, by decide, ?_, ?_⟩
  · rw [(toProtobufPkg_kept_then_normalised sampleTables "a/b-c.d" (by decide)
      (by decide)).2.2.2 (by decide)]
    decide
  · exact (toProtobufPkg_kept_then_normalised sampleTables _ (by decide) (by decide)).2.2.1
      sampleChain_letters

/-- C8: `findMapping` returns the custom entry when the custom table has one for the
key, otherwise the default entry for the key, and no mapping exactly when neither
table has the key. -/
theorem findMapping_custom_first (dm : TypeMappings) (t : Transformer) (name : String) :
    (∀ pt, t.mappings name = some pt → t.findMapping dm name = some pt)
      ∧ (t.mappings name = none → t.findMapping dm name = dm name)
      ∧ (t.findMapping dm name = none ↔ t.mappings name = none ∧ dm name = none) := by
  unfold Transformer.findMapping
  cases h : t.mappings name <;> simp

/-- C9: for a scanned named type `(path, name)` with no entry in either mapping table,
`transformType` returns the schema named type of package `toProtobufPkg path` and
name `name` and imports `path` into the package; `transformField` returns a field
for it; and in `transformStruct` a field of that type at declaration index `i` is
appended at position `i + 1` and that position is never reserved. -/
theorem transformType_named_unmapped (u : UnicodeTables) (dm : TypeMappings) (t : Transformer)
    (pkg : Package) (r : Bool) (path name : String)
    (hc : t.mappings (scanner.NamedString path name) = none)
    (hd : dm (scanner.NamedString path name) = none) :
    t.transformType u dm pkg (.Named r path name)
        = (pkg.ImportFromPath path, Typ.Named (toProtobufPkg u path) name false)
      ∧ path ∈ (t.transformType u dm pkg (.Named r path name)).1.Imports
      ∧ (∀ fname pos,
          (t.transformField u dm pkg ⟨fname, .Named r path name⟩ pos).2
            = some { Name := toLowerSnakeCase u fname, Pos := pos,
                     Typ := Typ.Named (toProtobufPkg u path) name false,
                     Repeated := r, Options := [] })
      ∧ (∀ (s : scanner.Struct) (i : Nat) (fname : String),
          s.Fields[i]? = some ⟨fname, .Named r path name⟩ →
            Event.Append (i + 1) ∈ (t.transformStruct u dm pkg s).2.2
              ∧ Event.Reserve (i + 1) ∉ (t.transformStruct u dm pkg s).2.2) := by
  have hfm : t.findMapping dm (scanner.NamedString path name) = none := by
    simp [Transformer.findMapping, hc, hd]
  have hty : t.transformType u dm pkg (.Named r path name)
      = (pkg.ImportFromPath path, Typ.Named (toProtobufPkg u path) name false) := by
    simp [Transformer.transformType, hfm, NewNamed]
  have hfield : ∀ fname pos,
      (t.transformField u dm pkg ⟨fname, .Named r path name⟩ pos).2
        = some { Name := toLowerSnakeCase u fname, Pos := pos,
                 Typ := Typ.Named (toProtobufPkg u path) name false,
                 Repeated := r, Options := [] } := by
    intro fname pos
    simp [Transformer.transformField, isByteSlice, hty, scanner.Typ.IsRepeated]
  refine ⟨hty, ?_, hfield, ?_⟩
  · rw [hty]
    simp only [Package.ImportFromPath, Package.addImport]
    split <;> simp_all
  · intro s i fname hi
    have hres := keepsField_of_some u dm t _ _ _ _ (hfield fname (i + 1))
    rw [append_mem_events, reserve_mem_events]
    refine ⟨⟨_, hi, hres⟩, ?_⟩
    rintro ⟨f, hf, hr⟩
    rw [hi] at hf
    cases hf
    rw [hres] at hr
    cases hr

/-- Witness of C9: the named type `c/d.X`, which neither table maps. -/
theorem transformType_named_unmapped_witness :
    sampleTransformer.mappings (scanner.NamedString "c/d" "X") = none
      ∧ sampleDefaults (scanner.NamedString "c/d" "X") = none
      ∧ sampleTransformer.transformType sampleTables sampleDefaults samplePackage
          (.Named false "c/d" "X")
        = ({ samplePackage with Imports := ["c/d"] }, Typ.Named "c.d" "X" false) := by
  have h1 : sampleTransformer.mappings (scanner.NamedString "c/d" "X") = none := rfl
  have h2 : sampleDefaults (scanner.NamedString "c/d" "X") = none := by decide
  refine ⟨h1, h2, ?_⟩
  rw [(transformType_named_unmapped sampleTables sampleDefaults sampleTransformer samplePackage
    false "c/d" "X" h1 h2).1]
  decide

/-- C10: the events of `transformStruct` are, field by field in declaration order, for
a kept field its append followed at once by the `Field` callback of every plugin in
registration order, for a dropped field its reservation alone, and after the
fields the `Message` callback of every plugin; each plugin receives the kept fields,
each once and in declaration order, and no dropped field. The callbacks are
applied as logged: the package and message returned are those obtained by taking
every scanned field in turn, reserving its position or running the `Field`
callbacks on its field and adding it, and then running the `Message` callbacks; so
with plugins that leave fields alone the message holds exactly the kept fields. -/
theorem transformStruct_callback_order (u : UnicodeTables) (dm : TypeMappings) (t : Transformer)
    (pkg : Package) (s : scanner.Struct) :
    (t.transformStruct u dm pkg s).2.2
        = s.Fields.enum.flatMap (fun p =>
            if t.keepsField u dm p.2 then
              Event.Append (p.1 + 1)
                :: (List.range t.plugins.length).map (fun j => Event.Field j p.2)
            else [Event.Reserve (p.1 + 1)])
          ++ (List.range t.plugins.length).map (fun j => Event.Message j s)
      ∧ (∀ j, j < t.plugins.length →
          fieldCallsOf j (t.transformStruct u dm pkg s).2.2
            = s.Fields.filter (fun f => t.keepsField u dm f))
      ∧ ((t.transformStruct u dm pkg s).1, (t.transformStruct u dm pkg s).2.1)
          = t.plugins.foldl (fun st pl => pl.Message st.1 st.2 s)
              (s.Fields.enum.foldl (t.fieldStep u dm)
                (pkg, { Name := s.Name, Reserved := [], Options := [], Fields := [] }))
      ∧ ((∀ p ∈ t.plugins, p.KeepsFields) →
          (t.transformStruct u dm pkg s).2.1.Fields.map Field.core
            = (s.Fields.enum.filterMap
                (fun p => (t.transformField u dm pkg p.2 (p.1 + 1)).2)).map Field.core) := by
  refine ⟨transformStruct_events u dm t pkg s, ?_, transformStruct_state u dm t pkg s,
    transformStruct_fields_core u dm t pkg s⟩
  intro j hj
  rw [transformStruct_events]
  have h := fieldCallsOf_flatMap u dm t j hj s.Fields 0
  unfold fieldCallsOf at h ⊢
  rw [List.filterMap_append, List.enum, h]
  simp [List.filterMap_map, Function.comp_def]

/-- C11: the events of one run of `Transform` are the events of its two loops, none of
them a `Package` callback, followed by one `Package` callback per registered plugin,
in registration order, so these are the last callbacks of the run; each is handed
the package as the loops and the plugins before it left it, and the package
returned is the one the last of them leaves. When the plugins leave the structure
of the package alone, the package handed to each of them holds one message per
scanned struct and one enum per scanned enum, with their names when the plugins
leave names alone. -/
theorem Transform_package_callback_last (u : UnicodeTables) (dm : TypeMappings)
    (t : Transformer) (p : scanner.Package) :
    (t.Transform u dm p).2
        = (Transformer.Transform.loops u dm t p).2
          ++ (List.range t.plugins.length).map (fun j =>
              Event.Package j
                ((t.plugins.take j).foldl (fun pk pl => pl.Package pk p)
                  (Transformer.Transform.loops u dm t p).1) p)
      ∧ (∀ e ∈ (Transformer.Transform.loops u dm t p).2, e.packagePlugin = none)
      ∧ (t.Transform u dm p).1
          = t.plugins.foldl (fun pk pl => pl.Package pk p) (Transformer.Transform.loops u dm t p).1
      ∧ ((∀ pl ∈ t.plugins, pl.KeepsPackage) →
          (Transformer.Transform.loops u dm t p).1.Messages.length = p.Structs.length
            ∧ (Transformer.Transform.loops u dm t p).1.Enums.length = p.Enums.length
            ∧ (∀ j,
                ((t.plugins.take j).foldl (fun pk pl => pl.Package pk p)
                    (Transformer.Transform.loops u dm t p).1).Messages
                  = (Transformer.Transform.loops u dm t p).1.Messages
                ∧ ((t.plugins.take j).foldl (fun pk pl => pl.Package pk p)
                    (Transformer.Transform.loops u dm t p).1).Enums
                  = (Transformer.Transform.loops u dm t p).1.Enums)
            ∧ ((∀ pl ∈ t.plugins, pl.KeepsNames) →
                (Transformer.Transform.loops u dm t p).1.Messages.map Message.Name
                    = p.Structs.map scanner.Struct.Name
                  ∧ (Transformer.Transform.loops u dm t p).1.Enums.map Enum.Name
                    = p.Enums.map scanner.Enum.Name)) := by
  refine ⟨?_, ?_, ?_, ?_⟩
  · simp only [Transformer.Transform, Transformer.Transform.loops, plugins.Package]
    rw [packageChain_events]
    simp
  · intro e he
    simp only [Transformer.Transform.loops, List.mem_append] at he
    rcases he with he | he
    · exact structs_no_package_event u dm t _ _ e he
    · exact enums_no_package_event u t _ _ e he
  · simp only [Transformer.Transform, Transformer.Transform.loops, plugins.Package]
    rw [packageChain_result]
  · intro h
    obtain ⟨-, -, e3, e4, e5⟩ := enums_result u t h p.Enums
      (Transformer.Transform.structs u dm t p.Structs
        { Name := toProtobufPkg u p.Path, Path := p.Path, Imports := [], Options := [],
          Messages := [], Enums := [] }).1
    obtain ⟨-, -, s3, s4, s5⟩ := structs_result u dm t h p.Structs
      { Name := toProtobufPkg u p.Path, Path := p.Path, Imports := [], Options := [],
        Messages := [], Enums := [] }
    refine ⟨?_, ?_, ?_, ?_⟩
    · simp only [Transformer.Transform.loops]
      rw [e3, s4]
      simp
    · simp only [Transformer.Transform.loops]
      rw [e4, s3]
      simp
    · intro j
      have hsh := (shape_eq_iff _ _).1 (foldl_package_shape p (t.plugins.take j)
        (fun q hq => h q (List.mem_of_mem_take hq)) (Transformer.Transform.loops u dm t p).1)
      exact ⟨hsh.2.2.1, hsh.2.2.2⟩
    · intro hn
      constructor
      · simp only [Transformer.Transform.loops]
        rw [e3, s5 hn]
        simp
      · simp only [Transformer.Transform.loops]
        rw [e5 hn, s3]
        simp

/-- C12: `AddPlugin` appends, so plugins registered as `p_1..p_k` are held in that
order; and each of the five chain callbacks runs the callback of `p_1`, then `p_2`,
..., then `p_k`, each once, on the same scanned entity and on the package and
entity as the plugins before it left them. -/
theorem plugins_invoked_in_registration_order (t : Transformer) (ps : List Plugin) :
    (ps.foldl Transformer.AddPlugin t).plugins = t.plugins ++ ps
      ∧ (∀ pkg old, (plugins.Package ps pkg old).1 = ps.foldl (fun pk pl => pl.Package pk old) pkg
          ∧ (plugins.Package ps pkg old).2.map Event.packagePlugin
              = (List.range ps.length).map some)
      ∧ (∀ pkg m old,
          ((plugins.Message ps pkg m old).1, (plugins.Message ps pkg m old).2.1)
              = ps.foldl (fun s pl => pl.Message s.1 s.2 old) (pkg, m)
            ∧ (plugins.Message ps pkg m old).2.2
              = (List.range ps.length).map (fun j => Event.Message j old))
      ∧ (∀ pkg f old,
          ((plugins.Field ps pkg f old).1, (plugins.Field ps pkg f old).2.1)
              = ps.foldl (fun s pl => pl.Field s.1 s.2 old) (pkg, f)
            ∧ (plugins.Field ps pkg f old).2.2
              = (List.range ps.length).map (fun j => Event.Field j old))
      ∧ (∀ pkg e old,
          ((plugins.Enum ps pkg e old).1, (plugins.Enum ps pkg e old).2.1)
              = ps.foldl (fun s pl => pl.Enum s.1 s.2 old) (pkg, e)
            ∧ (plugins.Enum ps pkg e old).2.2
              = (List.range ps.length).map (fun j => Event.Enum j old))
      ∧ (∀ pkg v old,
          ((plugins.EnumValue ps pkg v old).1, (plugins.EnumValue ps pkg v old).2.1)
              = ps.foldl (fun s pl => pl.EnumValue s.1 s.2 old) (pkg, v)
            ∧ (plugins.EnumValue ps pkg v old).2.2
              = (List.range ps.length).map (fun j => Event.EnumValue j old)) := by
  refine ⟨?_, ?_, ?_, ?_, ?_, ?_⟩
  · induction ps generalizing t with
    | nil => simp
    | cons p ps ih => simp [List.foldl_cons, ih, Transformer.AddPlugin]
  · intro pkg old
    constructor
    · have h := pluginsEach_fold (fun pl pk (_ : Unit) => (pl.Package pk old, ()))
        (fun j pk _ => Event.Package j pk old) 0 ps pkg ()
      have h1 := congrArg Prod.fst h
      simp only [plugins.Package]
      rw [h1]
      clear h h1
      induction ps generalizing pkg with
      | nil => rfl
      | cons p ps ih => simp only [List.foldl_cons, ih]
    · simp only [plugins.Package]
      rw [packageChain_plugins, List.range_eq_range']
  · intro pkg m old
    exact ⟨pluginsEach_fold _ _ 0 ps pkg m, by
      unfold plugins.Message
      rw [pluginsEach_events, List.range_eq_range']⟩
  · intro pkg f old
    exact ⟨pluginsEach_fold _ _ 0 ps pkg f, by
      unfold plugins.Field
      rw [pluginsEach_events, List.range_eq_range']⟩
  · intro pkg e old
    exact ⟨pluginsEach_fold _ _ 0 ps pkg e, by
      unfold plugins.Enum
      rw [pluginsEach_events, List.range_eq_range']⟩
  · intro pkg v old
    exact ⟨pluginsEach_fold _ _ 0 ps pkg v, by
      unfold plugins.EnumValue
      rw [pluginsEach_events, List.range_eq_range']⟩

/-- C13: `Transform` is total and, with plugins that leave the structure of the package
and the names of messages and enums alone, returns a package whose `Path` is the
scanned path, whose `Name` is `toProtobufPkg` of that path, and which has one message
per scanned struct and one enum per scanned enum, in declaration order and with the
same names, whatever fields fail to resolve. -/
theorem Transform_total_shape (u : UnicodeTables) (dm : TypeMappings) (t : Transformer)
    (p : scanner.Package) (hp : ∀ pl ∈ t.plugins, pl.KeepsPackage)
    (hn : ∀ pl ∈ t.plugins, pl.KeepsNames) :
    (t.Transform u dm p).1.Path = p.Path
      ∧ (t.Transform u dm p).1.Name = toProtobufPkg u p.Path
      ∧ (t.Transform u dm p).1.Messages.map Message.Name = p.Structs.map scanner.Struct.Name
      ∧ (t.Transform u dm p).1.Enums.map Enum.Name = p.Enums.map scanner.Enum.Name
      ∧ (t.Transform u dm p).1.Messages.length = p.Structs.length
      ∧ (t.Transform u dm p).1.Enums.length = p.Enums.length := by
  obtain ⟨-, hfin⟩ := packageChain_snapshot p t.plugins hp 0
    (Transformer.Transform.enums u t p.Enums
      (Transformer.Transform.structs u dm t p.Structs
        { Name := toProtobufPkg u p.Path, Path := p.Path, Imports := [], Options := [],
          Messages := [], Enums := [] }).1).1
  have h2 := (shape_eq_iff _ _).1 hfin
  obtain ⟨e1, e2, e3, e4, e5⟩ := enums_result u t hp p.Enums
    (Transformer.Transform.structs u dm t p.Structs
      { Name := toProtobufPkg u p.Path, Path := p.Path, Imports := [], Options := [],
        Messages := [], Enums := [] }).1
  obtain ⟨s1, s2, s3, s4, s5⟩ := structs_result u dm t hp p.Structs
    { Name := toProtobufPkg u p.Path, Path := p.Path, Imports := [], Options := [],
      Messages := [], Enums := [] }
  have hM : (t.Transform u dm p).1.Messages.map Message.Name
      = p.Structs.map scanner.Struct.Name := by
    simp only [Transformer.Transform, plugins.Package]
    rw [h2.2.2.1, e3, s5 hn]
    simp
  have hE : (t.Transform u dm p).1.Enums.map Enum.Name = p.Enums.map scanner.Enum.Name := by
    simp only [Transformer.Transform, plugins.Package]
    rw [h2.2.2.2, e5 hn, s3]
    simp
  refine ⟨?_, ?_, hM, hE, ?_, ?_⟩
  · simp only [Transformer.Transform, plugins.Package]
    rw [h2.2.1, e2, s2]
  · simp only [Transformer.Transform, plugins.Package]
    rw [h2.1, e1, s1]
  · simpa using congrArg List.length hM
  · simpa using congrArg List.length hE

/-- Witness of C13 on `sampleScanned`, whose struct has a field that does not resolve. -/
theorem Transform_total_shape_witness :
    (∀ pl ∈ sampleTransformer.plugins, pl.KeepsPackage)
      ∧ (∀ pl ∈ sampleTransformer.plugins, pl.KeepsNames)
      ∧ (sampleTransformer.Transform sampleTables sampleDefaults sampleScanned).1.Messages.map
          Message.Name = ["S"]
      ∧ (sampleTransformer.Transform sampleTables sampleDefaults sampleScanned).1.Name = "a.b" := by
  have h := Transform_total_shape sampleTables sampleDefaults sampleTransformer sampleScanned
    samplePlugin_keepsPackage samplePlugin_keepsNames
  refine ⟨samplePlugin_keepsPackage, samplePlugin_keepsNames, ?_, ?_⟩
  · rw [h.2.2.1]
    rfl
  · rw [h.2.1]
    decide

/-- C14: `SetMappings` with a nil table leaves the transformer as it is, so every later
lookup gives what it gave before; with a table `m` it makes `m` the custom table
and leaves the plugins as they are. -/
theorem SetMappings_nil_ignored (t : Transformer) (m : TypeMappings) :
    t.SetMappings none = t
      ∧ (∀ dm name, (t.SetMappings none).findMapping dm name = t.findMapping dm name)
      ∧ (t.SetMappings (some m)).mappings = m
      ∧ (t.SetMappings (some m)).plugins = t.plugins :=
  ⟨rfl, fun _ _ => rfl, rfl, rfl⟩

/-- C15, counterexample: for the package `Transform` names
`gopkg.in.srcd.proteus.v1.example` (the import path of `src/example`) the names are
`exampleServiceServer` and `NewExampleServiceServer`, as in
`src/example/server.proteus.go`, and not the whole package name with its first
character changed and the suffix added. -/
theorem serviceImplName_of_dotted_name :
    (NewTransformer.Transform sampleTables sampleDefaults
        { Path := "gopkg.in/src-d/proteus.v1/example", Structs := [], Enums := [] }).1.Name
        = "gopkg.in.srcd.proteus.v1.example"
      ∧ serviceImplName sampleTables exampleProto = "exampleServiceServer"
      ∧ serviceImplNameSpec sampleTables exampleProto
          = "gopkg.in.srcd.proteus.v1.exampleServiceServer"
      ∧ serviceImplName sampleTables exampleProto ≠ serviceImplNameSpec sampleTables exampleProto
      ∧ constructorName sampleTables exampleProto = "NewExampleServiceServer"
      ∧ constructorNameSpec sampleTables exampleProto
          = "NewGopkg.in.srcd.proteus.v1.exampleServiceServer"
      ∧ constructorName sampleTables exampleProto
          ≠ constructorNameSpec sampleTables exampleProto := by
  decide

/-- C15, amended: for a package whose name is `S` without a dot, or ends in a dot
followed by `S` without a dot, `serviceImplName` is `S` with its first character
lower-cased followed by `ServiceServer`, and `constructorName` is `New`, `S` with
its first character upper-cased, `ServiceServer`; when `S` is empty they are the
affixes alone. -/
theorem serviceImplName_constructorName (u : UnicodeTables) (pkg : Package)
    (pre seg : List Char) (hseg : '.' ∉ seg)
    (hname : pkg.Name = String.mk seg ∨ pkg.Name = String.mk (pre ++ '.' :: seg)) :
    serviceImplName u pkg = mapFirst u.ToLower (String.mk seg) ++ "ServiceServer"
      ∧ constructorName u pkg = "New" ++ mapFirst u.ToUpper (String.mk seg) ++ "ServiceServer"
      ∧ (∀ c cs, seg = c :: cs →
          serviceImplName u pkg = String.mk (u.ToLower c :: cs) ++ "ServiceServer"
            ∧ constructorName u pkg
                = "New" ++ String.mk (u.ToUpper c :: cs) ++ "ServiceServer")
      ∧ (seg = [] →
          serviceImplName u pkg = "ServiceServer"
            ∧ constructorName u pkg = "NewServiceServer") := by
  have hl : lastSegment pkg.Name = String.mk seg := by
    rcases hname with h | h
    · rw [h]
      exact lastSegment_of_dotless seg hseg
    · rw [h]
      exact lastSegment_of_dotted pre seg hseg
  have h1 : serviceImplName u pkg = mapFirst u.ToLower (String.mk seg) ++ "ServiceServer" := by
    simp only [serviceImplName, hl]
  have h2 : constructorName u pkg
      = "New" ++ mapFirst u.ToUpper (String.mk seg) ++ "ServiceServer" := by
    simp only [constructorName, hl]
  refine ⟨h1, h2, ?_, ?_⟩
  · intro c cs hc
    subst hc
    exact ⟨h1, h2⟩
  · intro hc
    subst hc
    rw [h1, h2]
    exact ⟨rfl, rfl⟩

/-- Witness of C15 amended: the package `foo` of `TestServiceImplName` and
`TestConstructorName`. -/
theorem serviceImplName_constructorName_witness :
    '.' ∉ ['f', 'o', 'o']
      ∧ ({ samplePackage with Name := "foo" } : Package).Name = String.mk ['f', 'o', 'o']
      ∧ serviceImplName sampleTables { samplePackage with Name := "foo" } = "fooServiceServer"
      ∧ constructorName sampleTables { samplePackage with Name := "foo" }
          = "NewFooServiceServer" := by
  have h := serviceImplName_constructorName sampleTables { samplePackage with Name := "foo" }
    [] ['f', 'o', 'o'] (by decide) (Or.inl rfl)
  refine ⟨by decide, rfl, ?_, ?_⟩
  · rw [h.1]
    decide
  · rw [h.2.1]
    decide

/-- C16: the dispatch declaration has one call; its arguments are `in` alone for an
external input, `in.Arg1, ..., in.Argn` in order for a generated input whose
message has `n` fields, none when that message has no fields; and they are the same
for every descriptor with the same input, whatever the Go package. -/
theorem declMethod_arguments (implName : String) (proto : Package) (goPkg : GoPackage)
    (rpc : RPC) :
    ∃ lhs target args, (declMethod implName proto goPkg rpc).calls = [(lhs, target, args)]
      ∧ (rpc.Input.IsGenerated = false → args = ["in"])
      ∧ (rpc.Input.IsGenerated = true →
          args = (List.range (proto.numFields rpc.Input.MessageName)).map
                  (fun i => "in.Arg" ++ toString (i + 1))
            ∧ args.length = proto.numFields rpc.Input.MessageName)
      ∧ (rpc.Input.IsGenerated = true → proto.numFields rpc.Input.MessageName = 0 → args = [])
      ∧ (∀ implName2 goPkg2 rpc2, rpc2.Input = rpc.Input →
          ∃ lhs2 target2,
            (declMethod implName2 proto goPkg2 rpc2).calls = [(lhs2, target2, args)]) := by
  refine ⟨_, _, _, declMethod_calls implName proto goPkg rpc, ?_, ?_, ?_, ?_⟩
  · intro h
    simp [callArgs, h]
  · intro h
    simp [callArgs, h, numbered]
  · intro h h0
    simp [callArgs, h, numbered, h0]
  · intro implName2 goPkg2 rpc2 h
    refine ⟨callLhs proto goPkg2 rpc2, callTarget rpc2, ?_⟩
    rw [declMethod_calls]
    simp [callArgs, h]

/-- C17, counterexample: `GetAlphaTime` and `GetPhone` of `src/example` both have an
external output and no error outcome, yet the call of the first, which returns a
value, is assigned to `aux` (`aux := GetAlphaTime()` followed by `result = &aux`)
and the call of the second, which returns a pointer, to `result`; and the same
descriptor takes the one or the other form with the Go package. -/
theorem declMethod_lhs_depends_on_signature :
    (declMethod "exampleServiceServer" exampleProto exampleGoPkg
        { Name := "GetAlphaTime", Method := "GetAlphaTime", Recv := "", HasError := false,
          Input := NewGeneratedNamed "" "GetAlphaTimeRequest",
          Output := NewNamed "" "MyTime" }).calls
        = [(["aux"], "GetAlphaTime", [])]
      ∧ (declMethod "exampleServiceServer" exampleProto exampleGoPkg
        { Name := "GetPhone", Method := "GetPhone", Recv := "", HasError := false,
          Input := NewGeneratedNamed "" "GetPhoneRequest",
          Output := NewNamed "" "Product" }).calls
        = [(["result"], "GetPhone", [])]
      ∧ (declMethod "exampleServiceServer" exampleProto testGoPkg
        { Name := "GetAlphaTime", Method := "GetAlphaTime", Recv := "", HasError := false,
          Input := NewGeneratedNamed "" "GetAlphaTimeRequest",
          Output := NewNamed "" "MyTime" }).calls
        = [(["result"], "GetAlphaTime", [])]
      ∧ (NewNamed "" "MyTime").IsGenerated = false
      ∧ (NewNamed "" "Product").IsGenerated = false := by
  decide

/-- C17, amended: the left-hand side of the call of a dispatch declaration is, for an
external output of a function returning a pointer, `result` as a whole, followed
by `err` exactly when `HasError` is set; for an external output of a function
returning a value and no error, `aux`, defined by the call and followed by
`result = &aux`; for a generated output whose message has `k >= 1` fields,
`result.Result1, ..., result.Resultk` in order, followed by `err` exactly when
`HasError` is set; for a generated output without fields, `err` alone when
`HasError` is set and nothing otherwise, and its declaration allocates no result. -/
theorem declMethod_left_hand_side (implName : String) (proto : Package) (goPkg : GoPackage)
    (rpc : RPC) :
    ∃ lhs target args, (declMethod implName proto goPkg rpc).calls = [(lhs, target, args)]
      ∧ (rpc.Output.IsGenerated = false → goPkg.ReturnsValue rpc.Recv rpc.Method = false →
          lhs = "result" :: (if rpc.HasError then ["err"] else [])
            ∧ (declMethod implName proto goPkg rpc).Body
                = [Stmt.Alloc rpc.Output, Stmt.Call lhs target args, Stmt.Return])
      ∧ (rpc.Output.IsGenerated = false → goPkg.ReturnsValue rpc.Recv rpc.Method = true →
          rpc.HasError = false →
            lhs = ["aux"]
              ∧ (declMethod implName proto goPkg rpc).Body
                  = [Stmt.Alloc rpc.Output, Stmt.Define ["aux"] target args, Stmt.AddressOf,
                     Stmt.Return])
      ∧ (rpc.Output.IsGenerated = true → 1 ≤ proto.numFields rpc.Output.MessageName →
          lhs = (List.range (proto.numFields rpc.Output.MessageName)).map
                  (fun i => "result.Result" ++ toString (i + 1))
                ++ (if rpc.HasError then ["err"] else [])
            ∧ (declMethod implName proto goPkg rpc).Body
                = [Stmt.Alloc rpc.Output, Stmt.Call lhs target args, Stmt.Return])
      ∧ (rpc.Output.IsGenerated = true → proto.numFields rpc.Output.MessageName = 0 →
          lhs = (if rpc.HasError then ["err"] else [])
            ∧ (declMethod implName proto goPkg rpc).allocates = false
            ∧ (declMethod implName proto goPkg rpc).Body
                = [Stmt.Call lhs target args, Stmt.Return]) := by
  refine ⟨_, _, _, declMethod_calls implName proto goPkg rpc, ?_, ?_, ?_, ?_⟩
  · intro h hv
    constructor
    · simp [callLhs, viaAux, h, hv]
    · simp [declMethod, callLhs, viaAux, h, hv]
  · intro h hv he
    constructor
    · simp [callLhs, viaAux, h, hv, he]
    · simp [declMethod, callLhs, viaAux, h, hv, he]
  · intro h hk
    have hk0 : ¬ proto.numFields rpc.Output.MessageName = 0 := by omega
    constructor
    · simp [callLhs, h, numbered]
    · simp [declMethod, callLhs, viaAux, h, numbered, hk0]
  · intro h h0
    refine ⟨?_, ?_, ?_⟩
    · simp [callLhs, h, numbered, h0]
    · simp [declMethod, FuncDecl.allocates, viaAux, h, h0]
    · simp [declMethod, callLhs, viaAux, h, numbered, h0]

/-- C18: the call target of a dispatch declaration is `Method` when `Recv` is empty and
`s.Recv.Method` otherwise, the same for every descriptor with the same `Recv` and
`Method`, whatever the schema and the Go package; the declared function name is
the `Name` of the descriptor. -/
theorem declMethod_call_target (implName : String) (proto : Package) (goPkg : GoPackage)
    (rpc : RPC) :
    ∃ lhs target args, (declMethod implName proto goPkg rpc).calls = [(lhs, target, args)]
      ∧ (rpc.Recv = "" → target = rpc.Method)
      ∧ (rpc.Recv ≠ "" → target = "s." ++ rpc.Recv ++ "." ++ rpc.Method)
      ∧ (declMethod implName proto goPkg rpc).Name = rpc.Name
      ∧ (∀ implName2 proto2 goPkg2 rpc2, rpc2.Recv = rpc.Recv → rpc2.Method = rpc.Method →
          ∃ lhs2 args2,
            (declMethod implName2 proto2 goPkg2 rpc2).calls = [(lhs2, target, args2)]) := by
  refine ⟨_, _, _, declMethod_calls implName proto goPkg rpc, ?_, ?_, rfl, ?_⟩
  · intro h
    simp [callTarget, h]
  · intro h
    simp [callTarget, h]
  · intro implName2 proto2 goPkg2 rpc2 h1 h2
    refine ⟨callLhs proto2 goPkg2 rpc2, callArgs proto2 rpc2, ?_⟩
    rw [declMethod_calls]
    simp [callTarget, h1, h2]

/-- C19, counterexample: the path made of the letter U+65E5 alone is returned as it is,
so the result holds a character that is not ASCII. -/
theorem toProtobufPkg_keeps_non_ascii_letter :
    toProtobufPkg sampleTables (String.mk [Char.ofNat 0x65E5]) = String.mk [Char.ofNat 0x65E5]
      ∧ ¬ ∀ c ∈ (toProtobufPkg sampleTables (String.mk [Char.ofNat 0x65E5])).data,
          c.toNat < 128 := by
  decide

/-- C19, amended: for a path of ASCII characters which the normalisation chain leaves
unchanged once sanitised, `toProtobufPkg` returns ASCII characters only. -/
theorem toProtobufPkg_ascii_of_ascii (u : UnicodeTables) (path : String)
    (hs : u.IsLetter ' ' = false) (hn : u.IsNumber ' ' = false)
    (hascii : ∀ c ∈ path.data, c.toNat < 128)
    (hchain : toProtobufPkg.chain u (toProtobufPkgSpec u path).data
      = (toProtobufPkgSpec u path).data) :
    ∀ c ∈ (toProtobufPkg u path).data, c.toNat < 128 := by
  have h1 : toProtobufPkg u path = toProtobufPkgSpec u path := by
    simp only [toProtobufPkg]
    rw [map_filter_eq_kept u hs hn]
    exact congrArg String.mk hchain
  rw [h1]
  intro c hc
  simp only [toProtobufPkgSpec, List.mem_filterMap] at hc
  obtain ⟨r, hr, hrc⟩ := hc
  by_cases h1 : r = '/' ∨ r = '.'
  · simp [h1] at hrc
    subst hrc
    decide
  · by_cases h2 : (u.IsLetter r || u.IsNumber r) = true
    · simp only [h1, h2, if_true, if_false, Option.some.injEq] at hrc
      subst hrc
      exact hascii _ hr
    · simp [h1, h2] at hrc

/-- Witness of C19 amended: the path `a/b-c.d`. -/
theorem toProtobufPkg_ascii_of_ascii_witness :
    sampleTables.IsLetter ' ' = false ∧ sampleTables.IsNumber ' ' = false
      ∧ (∀ c ∈ "a/b-c.d".data, c.toNat < 128)
      ∧ (∀ c ∈ (toProtobufPkg sampleTables "a/b-c.d").data, c.toNat < 128) :=
  ⟨by decide, by decide, by decide,
    toProtobufPkg_ascii_of_ascii sampleTables "a/b-c.d" (by decide) (by decide) (by decide)
      (by decide)⟩

/-- C20: for a scanned basic type `name`, `transformType` yields a type exactly when the
custom or the default table has an entry for `name`; on a hit it yields the schema
type of the entry `findMapping` chose and imports the entry into the package; on a
miss it yields no type and leaves the package as it is, and a field of that type
that is not `[]byte` is dropped by `transformField` and reserved, not appended, by
`transformStruct`. -/
theorem transformType_basic (u : UnicodeTables) (dm : TypeMappings) (t : Transformer)
    (pkg : Package) (r : Bool) (name : String) :
    ((t.transformType u dm pkg (.Basic r name)).2 ≠ Typ.nil
        ↔ (t.mappings name ≠ none ∨ dm name ≠ none))
      ∧ (∀ pt, t.findMapping dm name = some pt →
          t.transformType u dm pkg (.Basic r name) = (pkg.Import pt, pt.Type)
            ∧ pt.Import ∈ (t.transformType u dm pkg (.Basic r name)).1.Imports)
      ∧ (t.mappings name = none → dm name = none →
          t.transformType u dm pkg (.Basic r name) = (pkg, Typ.nil)
            ∧ (isByteSlice (.Basic r name) = false →
                (∀ fname pos, (t.transformField u dm pkg ⟨fname, .Basic r name⟩ pos).2 = none)
                  ∧ ∀ (s : scanner.Struct) (i : Nat) (fname : String),
                      s.Fields[i]? = some ⟨fname, .Basic r name⟩ →
                        Event.Reserve (i + 1) ∈ (t.transformStruct u dm pkg s).2.2
                          ∧ Event.Append (i + 1) ∉ (t.transformStruct u dm pkg s).2.2)) := by
  have hnil : ∀ pt : ProtoType, pt.Type ≠ Typ.nil := by
    intro pt
    unfold ProtoType.Type NewBasic NewNamed
    split <;> simp
  refine ⟨?_, ?_, ?_⟩
  · simp only [Transformer.transformType, Transformer.findMapping]
    cases hc : t.mappings name with
    | some pt => simp [hnil pt]
    | none =>
      cases hd : dm name with
      | some pt => simp [hnil pt]
      | none => simp
  · intro pt hpt
    have hty : t.transformType u dm pkg (.Basic r name) = (pkg.Import pt, pt.Type) := by
      simp [Transformer.transformType, hpt]
    refine ⟨hty, ?_⟩
    rw [hty]
    exact addImport_mem pkg pt.Import
  · intro hc hd
    have hfm : t.findMapping dm name = none := by
      simp [Transformer.findMapping, hc, hd]
    have hty : t.transformType u dm pkg (.Basic r name) = (pkg, Typ.nil) := by
      simp [Transformer.transformType, hfm]
    refine ⟨hty, ?_⟩
    intro hb
    have hfield : ∀ fname pos,
        (t.transformField u dm pkg ⟨fname, .Basic r name⟩ pos).2 = none := by
      intro fname pos
      simp [Transformer.transformField, hb, hty]
    refine ⟨hfield, ?_⟩
    intro s i fname hi
    have hres : t.keepsField u dm ⟨fname, .Basic r name⟩ = false := by
      rw [← transformField_isSome u dm t _ (i + 1) pkg, hfield fname (i + 1)]
      rfl
    rw [append_mem_events, reserve_mem_events]
    refine ⟨⟨_, hi, hres⟩, ?_⟩
    rintro ⟨f, hf, hr⟩
    rw [hi] at hf
    cases hf
    rw [hres] at hr
    cases hr

/-- C21: for a scanned field that is not `[]byte` and whose type resolves, the field
returned by `transformField` has the resolved type, `Repeated` equal to the repeated
flag of the scanned type, `Name` equal to `toLowerSnakeCase` of the scanned name,
`Pos` equal to the position passed in and no options; and whenever `transformField`
turns a repeated scanned type into a non-repeated field, the scanned type is `[]byte`. -/
theorem transformField_resolved (u : UnicodeTables) (dm : TypeMappings) (t : Transformer)
    (pkg : Package) (field : scanner.Field) (pos : Nat)
    (hb : isByteSlice field.Typ = false)
    (hr : (t.transformType u dm pkg field.Typ).2 ≠ Typ.nil) :
    (t.transformField u dm pkg field pos).2
        = some { Name := toLowerSnakeCase u field.Name, Pos := pos,
                 Typ := (t.transformType u dm pkg field.Typ).2,
                 Repeated := field.Typ.IsRepeated, Options := [] }
      ∧ ∀ (f : scanner.Field) (p : Nat) (fld : Field),
          (t.transformField u dm pkg f p).2 = some fld →
            f.Typ.IsRepeated = true → fld.Repeated = false →
              f.Typ = scanner.Typ.Basic true "byte" := by
  constructor
  · simp [Transformer.transformField, hb, hr]
  · intro f p fld hf hrep hnot
    unfold Transformer.transformField at hf
    by_cases hbs : isByteSlice f.Typ = true
    · cases hty : f.Typ with
      | Basic r name =>
        rw [hty] at hbs hrep
        simp [isByteSlice, scanner.Typ.IsRepeated] at hbs hrep
        rw [hrep, hbs.2]
      | Named r path name =>
        rw [hty] at hbs
        simp [isByteSlice] at hbs
      | Map r k v =>
        rw [hty] at hbs
        simp [isByteSlice] at hbs
    · simp only [hbs, if_false, Bool.false_eq_true] at hf
      split at hf
      · simp at hf
      · simp only [Option.some.injEq] at hf
        rw [← hf] at hnot
        simp only at hnot
        rw [hrep] at hnot
        cases hnot

/-- Witness of C21: the repeated field `userID` of basic type `string` at position 4. -/
theorem transformField_resolved_witness :
    isByteSlice (scanner.Typ.Basic true "string") = false
      ∧ (sampleTransformer.transformType sampleTables sampleDefaults samplePackage
          (.Basic true "string")).2 ≠ Typ.nil
      ∧ (sampleTransformer.transformField sampleTables sampleDefaults samplePackage
          ⟨"userID", .Basic true "string"⟩ 4).2
        = some { Name := "user_id", Pos := 4, Typ := Typ.Basic "string", Repeated := true,
                 Options := [] } := by
  have h := (transformField_resolved sampleTables sampleDefaults sampleTransformer samplePackage
    ⟨"userID", .Basic true "string"⟩ 4 (by decide) (by decide)).1
  refine ⟨by decide, by decide, ?_⟩
  rw [h]
  decide

/-- C22: `toLowerSnakeCase s` is the string the specification describes: the runes of
`s` lower-cased in order, with one underscore before a rune exactly when it is
upper-case, not the first rune, and preceded by a rune that is not upper-case;
without the inserted underscores it is the lower-casing of `s`; `userID` gives
`user_id` and `HTTPServer` gives `httpserver`. -/
theorem toLowerSnakeCase_eq_spec (u : UnicodeTables) (s : String) :
    toLowerSnakeCase u s = toLowerSnakeCaseSpec u s
      ∧ (snakeMarks u s).map Prod.snd = s.data.map u.ToLower
      ∧ toLowerSnakeCase sampleTables "userID" = "user_id"
      ∧ toLowerSnakeCase sampleTables "HTTPServer" = "httpserver" := by
  refine ⟨?_, snakeMarks_snd u s.data none, by decide, by decide⟩
  unfold toLowerSnakeCase toLowerSnakeCaseSpec snakeMarks
  exact congrArg String.mk (snakeLoop_eq_marks u s.data 0 false none rfl (by simp))

/-- C23, counterexample: for the string `a` followed by U+1D400, an upper-case letter
that lower-casing leaves as it is, `toLowerSnakeCase` returns a string with that
upper-case rune, and applied again inserts a second underscore; and
`toUpperSnakeCase` of the lower-case letter U+1D41A returns that lower-case rune. -/
theorem toLowerSnakeCase_not_idempotent :
    toLowerSnakeCase sampleTables (String.mk ['a', Char.ofNat 0x1D400])
        = String.mk ['a', '_', Char.ofNat 0x1D400]
      ∧ sampleTables.IsUpper (Char.ofNat 0x1D400) = true
      ∧ toLowerSnakeCase sampleTables
          (toLowerSnakeCase sampleTables (String.mk ['a', Char.ofNat 0x1D400]))
        = String.mk ['a', '_', '_', Char.ofNat 0x1D400]
      ∧ toLowerSnakeCase sampleTables
          (toLowerSnakeCase sampleTables (String.mk ['a', Char.ofNat 0x1D400]))
        ≠ toLowerSnakeCase sampleTables (String.mk ['a', Char.ofNat 0x1D400])
      ∧ toUpperSnakeCase sampleTables (String.mk [Char.ofNat 0x1D41A])
        = String.mk [Char.ofNat 0x1D41A]
      ∧ sampleTables.IsLower (Char.ofNat 0x1D41A) = true := by
  decide

/-- C23, amended: when lower-casing turns every rune of `s` into a rune that is not
upper-case and that lower-casing leaves as it is (and the underscore is neither
upper-case nor changed), the result of `toLowerSnakeCase s` has no upper-case rune
and `toLowerSnakeCase` applied to it returns it; when upper-casing turns the
underscore and every lower-cased rune of `s` into a rune that is not lower-case,
`toUpperSnakeCase s` has no lower-case rune. -/
theorem toLowerSnakeCase_idempotent_of_lowered (u : UnicodeTables) (s : String)
    (h1 : u.IsUpper '_' = false) (h2 : u.ToLower '_' = '_')
    (h3 : ∀ r ∈ s.data, u.IsUpper (u.ToLower r) = false)
    (h4 : ∀ r ∈ s.data, u.ToLower (u.ToLower r) = u.ToLower r) :
    (∀ c ∈ (toLowerSnakeCase u s).data, u.IsUpper c = false)
      ∧ toLowerSnakeCase u (toLowerSnakeCase u s) = toLowerSnakeCase u s
      ∧ (u.IsLower (u.ToUpper '_') = false →
          (∀ r ∈ s.data, u.IsLower (u.ToUpper (u.ToLower r)) = false) →
            ∀ c ∈ (toUpperSnakeCase u s).data, u.IsLower c = false) := by
  have hall : ∀ c ∈ (toLowerSnakeCase u s).data, u.IsUpper c = false ∧ u.ToLower c = c := by
    intro c hc
    rcases snakeLoop_mem u s.data 0 false c hc with rfl | ⟨r, hr, rfl⟩
    · exact ⟨h1, h2⟩
    · exact ⟨h3 r hr, h4 r hr⟩
  refine ⟨fun c hc => (hall c hc).1, ?_, ?_⟩
  · show String.mk (toLowerSnakeCase.loop u (toLowerSnakeCase u s).data 0 false)
      = toLowerSnakeCase u s
    rw [snakeLoop_fixed u _ 0 false hall]
  · intro h5 h6 c hc
    simp only [toUpperSnakeCase, List.mem_map] at hc
    obtain ⟨d, hd, rfl⟩ := hc
    rcases snakeLoop_mem u s.data 0 false d hd with rfl | ⟨r, hr, rfl⟩
    · exact h5
    · exact h6 r hr

/-- Witness of C23 amended: the ASCII name `userID`. -/
theorem toLowerSnakeCase_idempotent_of_lowered_witness :
    sampleTables.IsUpper '_' = false ∧ sampleTables.ToLower '_' = '_'
      ∧ (∀ r ∈ "userID".data, sampleTables.IsUpper (sampleTables.ToLower r) = false)
      ∧ (∀ r ∈ "userID".data,
          sampleTables.ToLower (sampleTables.ToLower r) = sampleTables.ToLower r)
      ∧ toLowerSnakeCase sampleTables (toLowerSnakeCase sampleTables "userID")
          = toLowerSnakeCase sampleTables "userID" :=
  ⟨by decide, by decide, by decide, by decide,
    (toLowerSnakeCase_idempotent_of_lowered sampleTables "userID" (by decide) (by decide)
      (by decide) (by decide)).2.1⟩

end Proteus
